import Mathlib

/-!
Verification of the Connect-4 critical-position database generator
(`retrogradgen.c`): a shallow embedding of its bitboard primitives,
solver, classifier, enumerator and serializer, with theorems about the
properties the specification states.

Machine integers are modelled as `Nat` (values below `2 ^ 64`), with an
explicit `% 2 ^ 64` wherever the C code could overflow (left shifts and
additions of `uint64_t`).  C `int` scores are modelled as `Int`, with C's
truncating division written out explicitly.  Loops whose termination is
not structural are given an explicit fuel parameter chosen large enough
to never run out on the inputs the program uses.
-/

/-- C truncating division by two on `int` (rounds toward zero), used for
all the score arithmetic of the solver. -/
def half (a : Int) : Int :=
  if 0 ≤ a then ((a.toNat / 2 : Nat) : Int) else -((a.natAbs / 2 : Nat) : Int)

/-- Fuel-driven bit count; `popcountAux f n` is the number of set bits of
`n` when `n < 2 ^ f`. -/
def popcountAux : Nat → Nat → Nat
  | 0, _ => 0
  | f + 1, n => if n = 0 then 0 else n % 2 + popcountAux f (n / 2)

/-- `__builtin_popcountll`: the number of set bits of a 64-bit value. -/
def popcount64 (n : Nat) : Nat := popcountAux 64 n

/-- Fuel-driven base-2 logarithm; `lg2Aux f n = Nat.log2 n` for `n < 2 ^ f`. -/
def lg2Aux : Nat → Nat → Nat
  | 0, _ => 0
  | f + 1, n => if n < 2 then 0 else lg2Aux f (n / 2) + 1

/-- Base-2 logarithm of a 64-bit value (floor). -/
def lg2 (n : Nat) : Nat := lg2Aux 64 n

/-! ## Bitboard constants (`init_bitboards`)

`WIDTH = 7`, `HEIGHT = 6`; the seven columns occupy seven 7-bit lanes of a
64-bit word, bits 0..5 of a lane being rows bottom-to-top and bit 6 the
guard bit. -/

def WIDTH : Nat := 7
def HEIGHT : Nat := 6
def MIN_PLY : Nat := 15
def MAX_PLY : Nat := 28

/-- `bottom_mask_col[c] = 1 << (c * (HEIGHT + 1))`. -/
def bottom_mask_col (c : Nat) : Nat := 1 <<< (c * (HEIGHT + 1))

/-- `column_mask_col[c] = ((1 << HEIGHT) - 1) << (c * (HEIGHT + 1))`. -/
def column_mask_col (c : Nat) : Nat := ((1 <<< HEIGHT) - 1) <<< (c * (HEIGHT + 1))

/-- OR of all `bottom_mask_col`. -/
def bottom_mask : Nat := (List.range WIDTH).foldl (fun a c => a ||| bottom_mask_col c) 0

/-- OR of all `column_mask_col`: the 42 playable cells. -/
def board_mask : Nat := (List.range WIDTH).foldl (fun a c => a ||| column_mask_col c) 0

/-- OR of the guard bit of every column (not part of the source; names the
cells the data-model invariants exclude). -/
def guard_mask : Nat :=
  (List.range WIDTH).foldl (fun a c => a ||| (1 <<< (HEIGHT + c * (HEIGHT + 1)))) 0

/-- `top_mask_col(c) = 1 << ((HEIGHT - 1) + c * (HEIGHT + 1))`. -/
def top_mask_col (c : Nat) : Nat := 1 <<< ((HEIGHT - 1) + c * (HEIGHT + 1))

/-- Center-first column order used by the solver's move loop. -/
def column_order : List Nat := [3, 2, 4, 1, 5, 0, 6]

/-! ## Position -/

/-- A position: stones of the side to move, all stones, and the move count. -/
structure Position where
  current : Nat
  mask : Nat
  ply : Nat
deriving DecidableEq, Repr

/-- `can_play(p, c)`: the topmost cell of column c is empty. -/
def can_play (p : Position) (c : Nat) : Bool := p.mask &&& top_mask_col c == 0

/-- `move_bit(p, c) = (p.mask + bottom_mask_col[c]) & column_mask_col[c]`
(the addition is 64-bit). -/
def move_bit (p : Position) (c : Nat) : Nat :=
  ((p.mask + bottom_mask_col c) % 2 ^ 64) &&& column_mask_col c

/-- `play_col`: flip `current` with `mask`, OR the move bit into `mask`,
increment `ply`. -/
def play_col (p : Position) (c : Nat) : Position :=
  { current := p.current ^^^ p.mask
    mask := p.mask ||| move_bit p c
    ply := p.ply + 1 }

/-- 64-bit left shift (a C `<<` on `uint64_t`). -/
def shl64 (x n : Nat) : Nat := (x <<< n) % 2 ^ 64

/-- The shift-based 3-in-a-row detector of `compute_winning_positions`:
all cells that would complete four in a row for the player whose stones
are `position`, before the final restriction to empty board cells. -/
def winning_pattern (position : Nat) : Nat :=
  -- vertical
  let r := shl64 position 1 &&& shl64 position 2 &&& shl64 position 3
  -- horizontal
  let p1 := shl64 position (HEIGHT + 1) &&& shl64 position (2 * (HEIGHT + 1))
  let r := r ||| (p1 &&& shl64 position (3 * (HEIGHT + 1)))
  let r := r ||| (p1 &&& (position >>> (HEIGHT + 1)))
  let p2 := (position >>> (HEIGHT + 1)) &&& (position >>> (2 * (HEIGHT + 1)))
  let r := r ||| (p2 &&& shl64 position (HEIGHT + 1))
  let r := r ||| (p2 &&& (position >>> (3 * (HEIGHT + 1))))
  -- diagonal /
  let p3 := shl64 position HEIGHT &&& shl64 position (2 * HEIGHT)
  let r := r ||| (p3 &&& shl64 position (3 * HEIGHT))
  let r := r ||| (p3 &&& (position >>> HEIGHT))
  let p4 := (position >>> HEIGHT) &&& (position >>> (2 * HEIGHT))
  let r := r ||| (p4 &&& shl64 position HEIGHT)
  let r := r ||| (p4 &&& (position >>> (3 * HEIGHT)))
  -- diagonal \
  let p5 := shl64 position (HEIGHT + 2) &&& shl64 position (2 * (HEIGHT + 2))
  let r := r ||| (p5 &&& shl64 position (3 * (HEIGHT + 2)))
  let r := r ||| (p5 &&& (position >>> (HEIGHT + 2)))
  let p6 := (position >>> (HEIGHT + 2)) &&& (position >>> (2 * (HEIGHT + 2)))
  let r := r ||| (p6 &&& shl64 position (HEIGHT + 2))
  let r := r ||| (p6 &&& (position >>> (3 * (HEIGHT + 2))))
  r

/-- `compute_winning_positions(position, mask)`: the detector output
restricted to empty board cells (`r & (board_mask ^ mask)`). -/
def compute_winning_positions (position mask : Nat) : Nat :=
  winning_pattern position &&& (board_mask ^^^ mask)

/-- The next-drop cells: `(mask + bottom_mask) & board_mask` (64-bit add). -/
def possible_moves (p : Position) : Nat :=
  ((p.mask + bottom_mask) % 2 ^ 64) &&& board_mask

/-- `can_win_next(p)`: the side to move has an immediate four. -/
def can_win_next (p : Position) : Bool :=
  compute_winning_positions p.current p.mask &&& possible_moves p != 0

/-- `opponent_winning_positions(p)`. -/
def opponent_winning_positions (p : Position) : Nat :=
  compute_winning_positions (p.current ^^^ p.mask) p.mask

/-- `non_losing_moves(p)`: playable cells that do not hand the opponent an
immediate win.  `~x` on `uint64_t` is the 64-bit complement. -/
def non_losing_moves (p : Position) : Nat :=
  let possible := possible_moves p
  let opponent_wins := opponent_winning_positions p
  let forced := possible &&& opponent_wins
  if forced ≠ 0 then
    if forced &&& (forced - 1) ≠ 0 then 0
    else forced &&& ((2 ^ 64 - 1) ^^^ (opponent_wins >>> 1))
  else possible &&& ((2 ^ 64 - 1) ^^^ (opponent_wins >>> 1))

/-- `position_key(p) = p.current + p.mask` (64-bit add). -/
def position_key (p : Position) : Nat := (p.current + p.mask) % 2 ^ 64

/-- `move_score(p, move)`: number of threats the move creates. -/
def move_score (p : Position) (move : Nat) : Nat :=
  popcount64 (compute_winning_positions (p.current ||| move) p.mask)

/-! ## Data-model invariants

The invariants of §3 of the specification: `current ⊆ mask`, no bit
outside the 42 playable cells in either field, every guard bit zero,
`popcount(mask) = ply`, and monotone column heights. -/

/-- The data-model invariants of a legal position. -/
def Legal (p : Position) : Prop :=
  p.current &&& p.mask = p.current ∧
  p.current &&& board_mask = p.current ∧
  p.mask &&& board_mask = p.mask ∧
  p.mask &&& guard_mask = 0 ∧
  popcount64 p.mask = p.ply ∧
  ∀ c < WIDTH, ∀ r < HEIGHT, r ≠ 0 →
    p.mask.testBit (c * (HEIGHT + 1) + r) = true →
    p.mask.testBit (c * (HEIGHT + 1) + r - 1) = true

instance (p : Position) : Decidable (Legal p) := by
  unfold Legal; infer_instance

/-- Positions reachable from the empty board by playing playable columns,
as the enumerator does. -/
inductive Reachable : Position → Prop
  | base : Reachable ⟨0, 0, 0⟩
  | step {p : Position} {c : Nat} : Reachable p → c < WIDTH →
      can_play p c = true → Reachable (play_col p c)

-- sanity checks on the embedding
example : board_mask = 279258638311359 := by decide
example : bottom_mask = 4432676798593 := by decide
example : guard_mask = 283691315109952 := by decide
example : can_play ⟨0, 0, 0⟩ 3 = true := by decide
example : move_bit ⟨0, 0, 0⟩ 3 = 2 ^ 21 := by decide
example : Legal ⟨0, 0, 0⟩ := by decide
example : Legal (play_col ⟨0, 0, 0⟩ 3) := by decide
example : non_losing_moves ⟨0, 0, 0⟩ = bottom_mask := by decide
example : can_win_next ⟨2 ^ 0 + 2 ^ 1 + 2 ^ 2, 2 ^ 0 + 2 ^ 1 + 2 ^ 2 + 2 ^ 7 + 2 ^ 8 + 2 ^ 9, 6⟩ = true := by
  decide

/-! ## Lane decomposition

The seven columns are seven base-128 digits of the 64-bit bitboards; the
invariants make each digit of `mask` a block `2 ^ h - 1` of low bits.
These lemmas convert between a bitboard and its seven lanes. -/

/-- Lane `c` of a bitboard: its bits `7c .. 7c+6`. -/
def lane (x c : Nat) : Nat := (x >>> (7 * c)) % 128

/-- A bitboard assembled from seven lane values. -/
def ofLanes (f : Nat → Nat) : Nat :=
  f 0 + 128 * f 1 + 128 ^ 2 * f 2 + 128 ^ 3 * f 3 + 128 ^ 4 * f 4 +
    128 ^ 5 * f 5 + 128 ^ 6 * f 6

theorem lane_lt_128 (x c : Nat) : lane x c < 128 := Nat.mod_lt _ (by norm_num)

theorem lane_eq_div_mod (x c : Nat) : lane x c = x / 128 ^ c % 128 := by
  unfold lane
  rw [Nat.shiftRight_eq_div_pow, pow_mul]
  norm_num

theorem ofLanes_lane {x : Nat} (hx : x < 2 ^ 49) : ofLanes (lane x) = x := by
  unfold ofLanes
  simp only [lane_eq_div_mod]
  norm_num
  omega

theorem lane_ofLanes {f : Nat → Nat} (hf : ∀ c < 7, f c < 128) :
    ∀ c < 7, lane (ofLanes f) c = f c := by
  have h0 := hf 0 (by norm_num); have h1 := hf 1 (by norm_num)
  have h2 := hf 2 (by norm_num); have h3 := hf 3 (by norm_num)
  have h4 := hf 4 (by norm_num); have h5 := hf 5 (by norm_num)
  have h6 := hf 6 (by norm_num)
  intro c hc
  interval_cases c <;>
    · simp only [lane_eq_div_mod, ofLanes]
      norm_num
      omega

theorem ofLanes_lt {f : Nat → Nat} (hf : ∀ c < 7, f c < 128) :
    ofLanes f < 2 ^ 49 := by
  have h0 := hf 0 (by norm_num); have h1 := hf 1 (by norm_num)
  have h2 := hf 2 (by norm_num); have h3 := hf 3 (by norm_num)
  have h4 := hf 4 (by norm_num); have h5 := hf 5 (by norm_num)
  have h6 := hf 6 (by norm_num)
  unfold ofLanes
  norm_num
  omega

theorem eq_of_lane_eq {x y : Nat} (hx : x < 2 ^ 49) (hy : y < 2 ^ 49)
    (h : ∀ c < 7, lane x c = lane y c) : x = y := by
  rw [← ofLanes_lane hx, ← ofLanes_lane hy]
  unfold ofLanes
  rw [h 0 (by norm_num), h 1 (by norm_num), h 2 (by norm_num), h 3 (by norm_num),
    h 4 (by norm_num), h 5 (by norm_num), h 6 (by norm_num)]

theorem testBit_lane (x c r : Nat) (hr : r < 7) :
    (lane x c).testBit r = x.testBit (7 * c + r) := by
  unfold lane
  have : (128 : Nat) = 2 ^ 7 := by norm_num
  rw [this, Nat.testBit_mod_two_pow, Nat.testBit_shiftRight]
  simp [hr]

theorem testBit_lane_high (x c i : Nat) (hi : 7 ≤ i) : (lane x c).testBit i = false :=
  Nat.testBit_lt_two_pow (lt_of_lt_of_le (lane_lt_128 x c)
    (le_trans (by norm_num) (Nat.pow_le_pow_right (by norm_num) hi)))

theorem lane_land (x y c : Nat) : lane (x &&& y) c = lane x c &&& lane y c := by
  apply Nat.eq_of_testBit_eq
  intro i
  rcases lt_or_ge i 7 with hi | hi
  · rw [testBit_lane _ _ _ hi, Nat.testBit_land, Nat.testBit_land,
      testBit_lane _ _ _ hi, testBit_lane _ _ _ hi]
  · simp [Nat.testBit_land, testBit_lane_high _ _ _ hi]

theorem lane_lor (x y c : Nat) : lane (x ||| y) c = lane x c ||| lane y c := by
  apply Nat.eq_of_testBit_eq
  intro i
  rcases lt_or_ge i 7 with hi | hi
  · rw [testBit_lane _ _ _ hi, Nat.testBit_lor, Nat.testBit_lor,
      testBit_lane _ _ _ hi, testBit_lane _ _ _ hi]
  · simp [Nat.testBit_lor, testBit_lane_high _ _ _ hi]

theorem lane_xor (x y c : Nat) : lane (x ^^^ y) c = lane x c ^^^ lane y c := by
  apply Nat.eq_of_testBit_eq
  intro i
  rcases lt_or_ge i 7 with hi | hi
  · rw [testBit_lane _ _ _ hi, Nat.testBit_xor, Nat.testBit_xor,
      testBit_lane _ _ _ hi, testBit_lane _ _ _ hi]
  · simp [Nat.testBit_xor, testBit_lane_high _ _ _ hi]

/-! ## Structure of legal positions -/

/-- Height of column `c`: the number of stones in lane `c` of the mask. -/
def colHeight (p : Position) (c : Nat) : Nat := popcountAux 7 (lane p.mask c)

theorem ofLanes_add (f g : Nat → Nat) :
    ofLanes f + ofLanes g = ofLanes (fun c => f c + g c) := by
  unfold ofLanes; ring

theorem board_lt : board_mask < 2 ^ 49 := by decide

theorem le_of_and_eq {x y : Nat} (h : x &&& y = x) : x ≤ y := h ▸ Nat.and_le_right

theorem testBit_of_and_eq {x y : Nat} (h : x &&& y = x) {i : Nat}
    (hx : x.testBit i = true) : y.testBit i = true := by
  have h2 : (x &&& y).testBit i = x.testBit i := by rw [h]
  rw [Nat.testBit_land, hx] at h2
  simpa using h2

theorem and_ne_zero_of_testBit {x y i : Nat} (hx : x.testBit i = true)
    (hy : y.testBit i = true) : x &&& y ≠ 0 := by
  intro h
  have : (x &&& y).testBit i = true := by rw [Nat.testBit_land, hx, hy]; rfl
  rw [h, Nat.zero_testBit] at this
  exact Bool.false_ne_true this

theorem mask_lt_of_legal {p : Position} (hp : Legal p) : p.mask < 2 ^ 49 :=
  lt_of_le_of_lt (le_of_and_eq hp.2.2.1) (by decide)

theorem current_lt_of_legal {p : Position} (hp : Legal p) : p.current < 2 ^ 49 :=
  lt_of_le_of_lt (le_of_and_eq hp.2.1) (by decide)

theorem lane_board : ∀ c < 7, lane board_mask c = 63 := by decide

theorem lane_bottom : ∀ c < 7, lane bottom_mask c = 1 := by decide

theorem lane_le_63 {x : Nat} (h : x &&& board_mask = x) : ∀ c < 7, lane x c ≤ 63 := by
  intro c hc
  have := lane_land x board_mask c
  rw [h, lane_board c hc] at this
  exact le_of_and_eq this.symm |>.trans (le_refl 63)

/-- Lane `c` of a legal mask is a block of `colHeight` low bits. -/
theorem lane_mask_of_legal {p : Position} (hp : Legal p) :
    ∀ c < 7, lane p.mask c = 2 ^ colHeight p c - 1 ∧ colHeight p c ≤ 6 := by
  intro c hc
  have h63 : lane p.mask c ≤ 63 := lane_le_63 hp.2.2.1 c hc
  have hmono : ∀ r < 6, r ≠ 0 → (lane p.mask c).testBit r = true →
      (lane p.mask c).testBit (r - 1) = true := by
    intro r hr hr0 hbit
    have h7 : r < 7 := by omega
    rw [testBit_lane _ _ _ h7] at hbit
    have := hp.2.2.2.2.2 c (by simpa [WIDTH] using hc) r (by simpa [HEIGHT] using hr) hr0
    rw [testBit_lane _ _ _ (by omega : r - 1 < 7)]
    have harg : c * (HEIGHT + 1) + r = 7 * c + r := by simp [HEIGHT]; ring
    rw [harg] at this
    have harg' : 7 * c + r - 1 = 7 * c + (r - 1) := by omega
    rw [harg'] at this
    exact this hbit
  revert hmono
  have hgen : ∀ l ≤ 63, (∀ r < 6, r ≠ 0 → l.testBit r = true → l.testBit (r - 1) = true) →
      l = 2 ^ popcountAux 7 l - 1 ∧ popcountAux 7 l ≤ 6 := by decide
  intro hmono
  exact hgen _ h63 hmono

theorem colHeight_le_6 {p : Position} (hp : Legal p) (c : Nat) (hc : c < 7) :
    colHeight p c ≤ 6 := (lane_mask_of_legal hp c hc).2

/-- A legal mask is the assembly of its column blocks. -/
theorem mask_eq_ofLanes {p : Position} (hp : Legal p) :
    p.mask = ofLanes (fun c => 2 ^ colHeight p c - 1) := by
  rw [← ofLanes_lane (mask_lt_of_legal hp)]
  unfold ofLanes
  rw [(lane_mask_of_legal hp 0 (by norm_num)).1, (lane_mask_of_legal hp 1 (by norm_num)).1,
    (lane_mask_of_legal hp 2 (by norm_num)).1, (lane_mask_of_legal hp 3 (by norm_num)).1,
    (lane_mask_of_legal hp 4 (by norm_num)).1, (lane_mask_of_legal hp 5 (by norm_num)).1,
    (lane_mask_of_legal hp 6 (by norm_num)).1]

theorem bottom_eq_ofLanes : bottom_mask = ofLanes (fun _ => 1) := by decide

/-- The next-drop bitboard of a legal position, lane by lane: the cell at
height `colHeight` when the column is not full, nothing otherwise. -/
theorem lane_possible {p : Position} (hp : Legal p) :
    ∀ c < 7, lane (possible_moves p) c =
      if colHeight p c ≤ 5 then 2 ^ colHeight p c else 0 := by
  have hsum : p.mask + bottom_mask = ofLanes (fun c => 2 ^ colHeight p c) := by
    rw [mask_eq_ofLanes hp, bottom_eq_ofLanes, ofLanes_add]
    simp only [ofLanes]
    have t0 : 0 < 2 ^ colHeight p 0 := Nat.pos_pow_of_pos _ (by norm_num)
    have t1 : 0 < 2 ^ colHeight p 1 := Nat.pos_pow_of_pos _ (by norm_num)
    have t2 : 0 < 2 ^ colHeight p 2 := Nat.pos_pow_of_pos _ (by norm_num)
    have t3 : 0 < 2 ^ colHeight p 3 := Nat.pos_pow_of_pos _ (by norm_num)
    have t4 : 0 < 2 ^ colHeight p 4 := Nat.pos_pow_of_pos _ (by norm_num)
    have t5 : 0 < 2 ^ colHeight p 5 := Nat.pos_pow_of_pos _ (by norm_num)
    have t6 : 0 < 2 ^ colHeight p 6 := Nat.pos_pow_of_pos _ (by norm_num)
    omega
  have hlanes : ∀ c < 7, (fun c => 2 ^ colHeight p c) c < 128 := by
    intro c hc
    have := colHeight_le_6 hp c hc
    calc 2 ^ colHeight p c ≤ 2 ^ 6 := Nat.pow_le_pow_right (by norm_num) this
    _ < 128 := by norm_num
  have hlt : p.mask + bottom_mask < 2 ^ 49 := by rw [hsum]; exact ofLanes_lt hlanes
  intro c hc
  unfold possible_moves
  rw [Nat.mod_eq_of_lt (lt_trans hlt (by norm_num)), lane_land, hsum,
    lane_ofLanes hlanes c hc, lane_board c hc]
  have hc6 := colHeight_le_6 hp c hc
  have : ∀ h ≤ 6, 2 ^ h &&& 63 = if h ≤ 5 then 2 ^ h else 0 := by decide
  exact this _ hc6

/-! ## Popcount over lanes -/

theorem popcountAux_zero (f : Nat) : popcountAux f 0 = 0 := by
  cases f <;> simp [popcountAux]

theorem popcountAux_succ (f n : Nat) :
    popcountAux (f + 1) n = n % 2 + popcountAux f (n / 2) := by
  by_cases h : n = 0
  · subst h; simp [popcountAux, popcountAux_zero]
  · simp [popcountAux, h]

theorem popcountAux_fuel {f : Nat} : ∀ {g n : Nat}, n < 2 ^ f → f ≤ g →
    popcountAux g n = popcountAux f n := by
  induction f with
  | zero =>
    intro g n hn _
    have hn0 : n = 0 := by simpa using hn
    subst hn0
    rw [popcountAux_zero, popcountAux_zero]
  | succ f ih =>
    intro g n hn hfg
    obtain ⟨g', rfl⟩ : ∃ g', g = g' + 1 := ⟨g - 1, by omega⟩
    rw [popcountAux_succ, popcountAux_succ]
    have h2 : 2 ^ (f + 1) = 2 ^ f * 2 := pow_succ 2 f
    rw [ih (by omega) (by omega)]

theorem popcountAux_split {g f : Nat} : ∀ {a b : Nat}, a < 2 ^ f →
    popcountAux (f + g) (a + 2 ^ f * b) = popcountAux f a + popcountAux g b := by
  induction f with
  | zero =>
    intro a b ha
    have ha0 : a = 0 := by simpa using ha
    subst ha0
    simp [popcountAux_zero]
  | succ f ih =>
    intro a b ha
    have h2 : 2 ^ (f + 1) = 2 ^ f * 2 := pow_succ 2 f
    have harr : f + 1 + g = (f + g) + 1 := by omega
    rw [harr, popcountAux_succ, popcountAux_succ]
    have ht : 2 ^ (f + 1) * b = 2 * (2 ^ f * b) := by rw [h2]; ring
    have hmod : (a + 2 ^ (f + 1) * b) % 2 = a % 2 := by rw [ht]; omega
    have hdiv : (a + 2 ^ (f + 1) * b) / 2 = a / 2 + 2 ^ f * b := by rw [ht]; omega
    rw [hmod, hdiv, ih (by omega)]
    ring

theorem popcount64_lanes {x : Nat} (hx : x < 2 ^ 49) :
    popcount64 x = popcountAux 7 (lane x 0) + popcountAux 7 (lane x 1) +
      popcountAux 7 (lane x 2) + popcountAux 7 (lane x 3) + popcountAux 7 (lane x 4) +
      popcountAux 7 (lane x 5) + popcountAux 7 (lane x 6) := by
  have step : ∀ g y, popcountAux (7 + g) y = popcountAux 7 (y % 128) + popcountAux g (y / 128) := by
    intro g y
    have h1 : y % 128 + 2 ^ 7 * (y / 128) = y := by
      simp only [show (2 : Nat) ^ 7 = 128 from by norm_num]
      omega
    conv_lhs => rw [← h1]
    exact popcountAux_split (by
      have := Nat.mod_lt y (show 0 < 128 by norm_num)
      simp only [show (2 : Nat) ^ 7 = 128 from by norm_num]
      omega)
  show popcountAux 64 x = _
  rw [show (64 : Nat) = 7 + 57 from by norm_num, step 57 x,
    show (57 : Nat) = 7 + 50 from by norm_num, step 50 (x / 128),
    show (50 : Nat) = 7 + 43 from by norm_num, step 43 (x / 128 / 128),
    show (43 : Nat) = 7 + 36 from by norm_num, step 36 (x / 128 / 128 / 128),
    show (36 : Nat) = 7 + 29 from by norm_num, step 29 (x / 128 / 128 / 128 / 128),
    show (29 : Nat) = 7 + 22 from by norm_num, step 22 (x / 128 / 128 / 128 / 128 / 128)]
  have hlast : x / 128 / 128 / 128 / 128 / 128 / 128 < 2 ^ 7 := by
    simp only [Nat.div_div_eq_div_mul]
    norm_num
    omega
  rw [popcountAux_fuel hlast (by norm_num)]
  simp only [lane_eq_div_mod, Nat.div_div_eq_div_mul]
  norm_num
  have hmod : x / 4398046511104 % 128 = x / 4398046511104 := by
    apply Nat.mod_eq_of_lt
    omega
  rw [hmod]
  ring

/-! ## Playing a column on a legal position -/

theorem and_eq_self_of_imp {x y : Nat}
    (h : ∀ i, x.testBit i = true → y.testBit i = true) : x &&& y = x := by
  apply Nat.eq_of_testBit_eq
  intro i
  rw [Nat.testBit_land]
  cases hx : x.testBit i
  · simp
  · simp [h i hx]

theorem and_eq_zero_of_imp {x y : Nat}
    (h : ∀ i, x.testBit i = true → y.testBit i = false) : x &&& y = 0 := by
  apply Nat.eq_of_testBit_eq
  intro i
  rw [Nat.testBit_land, Nat.zero_testBit]
  cases hx : x.testBit i
  · simp
  · simp [h i hx]

theorem ofLanes_congr {f g : Nat → Nat} (h : ∀ c < 7, f c = g c) :
    ofLanes f = ofLanes g := by
  unfold ofLanes
  rw [h 0 (by norm_num), h 1 (by norm_num), h 2 (by norm_num), h 3 (by norm_num),
    h 4 (by norm_num), h 5 (by norm_num), h 6 (by norm_num)]

theorem ofLanes_single {c : Nat} (hc : c < 7) (v : Nat) :
    ofLanes (fun k => if k = c then v else 0) = v * 128 ^ c := by
  interval_cases c <;> simp [ofLanes] <;> ring

theorem pow_128_eq (c : Nat) : (128 : Nat) ^ c = 2 ^ (7 * c) := by
  rw [show (128 : Nat) = 2 ^ 7 from by norm_num, ← pow_mul]

theorem bottom_col_ofLanes : ∀ c < 7,
    bottom_mask_col c = ofLanes (fun k => if k = c then 1 else 0) := by decide

theorem lane_column_col : ∀ c < 7, ∀ k < 7,
    lane (column_mask_col c) k = if k = c then 63 else 0 := by decide

theorem board_cell : ∀ c < 7, ∀ r < 6, board_mask.testBit (7 * c + r) = true := by decide

/-- `can_play` on a legal position says the column is not full. -/
theorem can_play_iff {p : Position} (hp : Legal p) {c : Nat} (hc : c < 7) :
    can_play p c = true ↔ colHeight p c ≤ 5 := by
  have htop : top_mask_col c = 2 ^ (7 * c + 5) := by
    unfold top_mask_col
    rw [Nat.shiftLeft_eq, one_mul, HEIGHT]
    ring_nf
  unfold can_play
  rw [htop, Nat.and_two_pow]
  have hbit : p.mask.testBit (7 * c + 5) = (lane p.mask c).testBit 5 :=
    (testBit_lane _ _ _ (by norm_num)).symm
  have hlane := (lane_mask_of_legal hp c hc).1
  have hh := (lane_mask_of_legal hp c hc).2
  rw [hbit, hlane, Nat.testBit_two_pow_sub_one]
  constructor
  · intro h
    by_contra h5
    have h6 : colHeight p c = 6 := by omega
    simp [h6] at h
  · intro h5
    have : ¬ (5 < colHeight p c) := by omega
    simp [this]

/-- The drop bit of a playable column of a legal position. -/
theorem move_bit_eq {p : Position} (hp : Legal p) {c : Nat} (hc : c < 7)
    (h5 : colHeight p c ≤ 5) : move_bit p c = 2 ^ (7 * c + colHeight p c) := by
  have hsum : p.mask + bottom_mask_col c =
      ofLanes (fun k => if k = c then 2 ^ colHeight p c else 2 ^ colHeight p k - 1) := by
    rw [mask_eq_ofLanes hp, bottom_col_ofLanes c hc, ofLanes_add]
    apply ofLanes_congr
    intro k hk
    by_cases hkc : k = c
    · subst hkc
      have := Nat.pos_pow_of_pos (colHeight p k) (show 0 < 2 by norm_num)
      simp
      omega
    · simp [hkc]
  have hlanes : ∀ k < 7,
      (fun k => if k = c then 2 ^ colHeight p c else 2 ^ colHeight p k - 1) k < 128 := by
    intro k hk
    by_cases hkc : k = c <;> simp [hkc] <;>
      [skip; have hk6 := colHeight_le_6 hp k hk]
    · calc 2 ^ colHeight p c ≤ 2 ^ 5 := Nat.pow_le_pow_right (by norm_num) h5
        _ < 128 := by norm_num
    · have : 2 ^ colHeight p k ≤ 2 ^ 6 := Nat.pow_le_pow_right (by norm_num) hk6
      omega
  have hlt : p.mask + bottom_mask_col c < 2 ^ 49 := by rw [hsum]; exact ofLanes_lt hlanes
  unfold move_bit
  rw [Nat.mod_eq_of_lt (lt_trans hlt (by norm_num))]
  have hres : (p.mask + bottom_mask_col c) &&& column_mask_col c =
      ofLanes (fun k => if k = c then 2 ^ colHeight p c else 0) := by
    apply eq_of_lane_eq
    · exact lt_of_le_of_lt Nat.and_le_left hlt
    · exact ofLanes_lt (by
        intro k hk
        by_cases hkc : k = c <;> simp [hkc]
        calc 2 ^ colHeight p c ≤ 2 ^ 5 := Nat.pow_le_pow_right (by norm_num) h5
          _ < 128 := by norm_num)
    · intro k hk
      rw [lane_land, hsum, lane_ofLanes hlanes k hk, lane_column_col c hc k hk,
        lane_ofLanes (by
          intro k' hk'
          by_cases hkc : k' = c <;> simp [hkc]
          calc 2 ^ colHeight p c ≤ 2 ^ 5 := Nat.pow_le_pow_right (by norm_num) h5
            _ < 128 := by norm_num) k hk]
      by_cases hkc : k = c
      · subst hkc
        simp only [if_pos rfl]
        have : ∀ h ≤ 5, 2 ^ h &&& 63 = 2 ^ h := by decide
        exact this _ h5
      · simp [hkc]
  rw [hres, ofLanes_single hc, pow_128_eq, ← pow_add]
  ring_nf

theorem testBit_false_of_and_zero {x y : Nat} (h : x &&& y = 0) {i : Nat}
    (hx : x.testBit i = true) : y.testBit i = false := by
  cases hy : y.testBit i
  · rfl
  · exact absurd h (and_ne_zero_of_testBit hx hy)

theorem testBit_mask_idx (x k r : Nat) (hr : r < 7) :
    x.testBit (k * (HEIGHT + 1) + r) = (lane x k).testBit r := by
  rw [testBit_lane _ _ _ hr]
  congr 1
  simp [HEIGHT]
  ring

theorem dc_block : ∀ h ≤ 6, ∀ r < 6, r ≠ 0 →
    ((2 ^ h - 1 : Nat).testBit r = true → (2 ^ h - 1 : Nat).testBit (r - 1) = true) := by
  decide

/-- Lanes of the mask after a move: the played column gains one stone. -/
theorem play_mask_lanes {p : Position} (hp : Legal p) {c : Nat} (hc : c < 7)
    (hcp : can_play p c = true) : ∀ k < 7, lane (play_col p c).mask k =
      if k = c then 2 ^ (colHeight p c + 1) - 1 else lane p.mask k := by
  have h5 := (can_play_iff hp hc).mp hcp
  have hv : 2 ^ colHeight p c < 128 := by
    calc 2 ^ colHeight p c ≤ 2 ^ 5 := Nat.pow_le_pow_right (by norm_num) h5
      _ < 128 := by norm_num
  have hmb : move_bit p c = ofLanes (fun k => if k = c then 2 ^ colHeight p c else 0) := by
    rw [move_bit_eq hp hc h5, ofLanes_single hc, pow_128_eq, ← pow_add]
    ring_nf
  intro k hk
  show lane (p.mask ||| move_bit p c) k = _
  rw [lane_lor, hmb, lane_ofLanes (by
    intro k' hk'
    by_cases hkc : k' = c <;> simp [hkc, hv]) k hk]
  by_cases hkc : k = c
  · subst hkc
    simp only [if_pos rfl]
    rw [(lane_mask_of_legal hp k hk).1]
    have : ∀ h ≤ 5, (2 ^ h - 1 : Nat) ||| 2 ^ h = 2 ^ (h + 1) - 1 := by decide
    exact this _ h5
  · simp [hkc]

/-- Bits of the opponent stones are bits of the mask. -/
theorem play_current_sub {p : Position} (hp : Legal p) :
    ∀ i, (p.current ^^^ p.mask).testBit i = true → p.mask.testBit i = true := by
  intro i hi
  rw [Nat.testBit_xor] at hi
  cases hm : p.mask.testBit i
  · cases hc2 : p.current.testBit i
    · rw [hm, hc2] at hi
      simp at hi
    · have := testBit_of_and_eq hp.1 hc2
      rw [this] at hm
      cases hm
  · rfl

/-- Playing a playable column preserves the data-model invariants. -/
theorem legal_play_col {p : Position} (hp : Legal p) {c : Nat} (hc : c < 7)
    (hcp : can_play p c = true) : Legal (play_col p c) := by
  have h5 := (can_play_iff hp hc).mp hcp
  have hlaneq := play_mask_lanes hp hc hcp
  have hmb : move_bit p c = 2 ^ (7 * c + colHeight p c) := move_bit_eq hp hc h5
  -- mask bits of the child are mask bits or the move bit
  have hmask_bits : ∀ i, (play_col p c).mask.testBit i = true →
      p.mask.testBit i = true ∨ i = 7 * c + colHeight p c := by
    intro i hi
    rw [show (play_col p c).mask = p.mask ||| move_bit p c from rfl, Nat.testBit_lor, hmb] at hi
    rcases Bool.or_eq_true_iff.mp hi with h | h
    · exact Or.inl h
    · right
      rw [Nat.testBit_two_pow] at h
      exact (of_decide_eq_true h).symm
  have hboard : ∀ i, (play_col p c).mask.testBit i = true → board_mask.testBit i = true := by
    intro i hi
    rcases hmask_bits i hi with h | h
    · exact testBit_of_and_eq hp.2.2.1 h
    · subst h
      exact board_cell c hc (colHeight p c) (by omega)
  have hq49 : (play_col p c).mask < 2 ^ 49 :=
    lt_of_le_of_lt (le_of_and_eq (and_eq_self_of_imp hboard)) board_lt
  have hcur : ∀ i, (play_col p c).current.testBit i = true → p.mask.testBit i = true :=
    play_current_sub hp
  refine ⟨?_, ?_, ?_, ?_, ?_, ?_⟩
  · -- current ⊆ mask
    apply and_eq_self_of_imp
    intro i hi
    rw [show (play_col p c).mask = p.mask ||| move_bit p c from rfl, Nat.testBit_lor,
      hcur i hi]
    rfl
  · -- current within the board
    exact and_eq_self_of_imp fun i hi =>
      testBit_of_and_eq hp.2.2.1 (hcur i hi)
  · -- mask within the board
    exact and_eq_self_of_imp hboard
  · -- guard bits of the mask are zero
    apply and_eq_zero_of_imp
    intro i hi
    exact testBit_false_of_and_zero (show board_mask &&& guard_mask = 0 by decide)
      (hboard i hi)
  · -- popcount(mask) = ply
    show popcount64 (play_col p c).mask = p.ply + 1
    rw [popcount64_lanes hq49]
    have e : ∀ k < 7, popcountAux 7 (lane (play_col p c).mask k) =
        if k = c then colHeight p c + 1 else colHeight p k := by
      intro k hk
      rw [hlaneq k hk]
      by_cases hkc : k = c
      · simp only [hkc, if_pos rfl]
        have hpcpow : ∀ h ≤ 6, popcountAux 7 (2 ^ h - 1) = h := by decide
        exact hpcpow _ (by omega)
      · simp only [if_neg hkc]
        rfl
    rw [e 0 (by norm_num), e 1 (by norm_num), e 2 (by norm_num), e 3 (by norm_num),
      e 4 (by norm_num), e 5 (by norm_num), e 6 (by norm_num)]
    have hply := hp.2.2.2.2.1
    rw [popcount64_lanes (mask_lt_of_legal hp)] at hply
    simp only [colHeight] at *
    interval_cases c <;> simp_all <;> omega
  · -- monotone heights
    intro k hk r hr hr0 hbit
    have hk7 : k < 7 := by simpa [WIDTH] using hk
    have hr6 : r < 6 := by simpa [HEIGHT] using hr
    rw [testBit_mask_idx _ _ _ (by omega)] at hbit
    have e2 : k * (HEIGHT + 1) + r - 1 = k * (HEIGHT + 1) + (r - 1) := by
      simp [HEIGHT]
      omega
    rw [e2, testBit_mask_idx _ _ _ (by omega)]
    rw [hlaneq k hk7] at hbit ⊢
    by_cases hkc : k = c
    · simp only [hkc, if_pos rfl] at hbit ⊢
      exact dc_block _ (by omega) r hr6 hr0 hbit
    · simp only [if_neg hkc] at hbit ⊢
      rw [(lane_mask_of_legal hp k hk7).1] at hbit ⊢
      exact dc_block _ (colHeight_le_6 hp k hk7) r hr6 hr0 hbit

/-! ## Claims C5 and C8 -/

theorem lane_current_le {p : Position} (hp : Legal p) :
    ∀ c < 7, lane p.current c ≤ 2 ^ colHeight p c - 1 := by
  intro c hc
  have h := lane_land p.current p.mask c
  rw [hp.1] at h
  have := le_of_and_eq h.symm
  rwa [(lane_mask_of_legal hp c hc).1] at this

theorem lane_key {p : Position} (hp : Legal p) :
    ∀ c < 7, lane (position_key p) c = lane p.current c + (2 ^ colHeight p c - 1) := by
  have hc49 := current_lt_of_legal hp
  have hm49 := mask_lt_of_legal hp
  have hkey : position_key p = ofLanes (fun c => lane p.current c + (2 ^ colHeight p c - 1)) := by
    unfold position_key
    rw [Nat.mod_eq_of_lt (by omega)]
    conv_lhs => rw [← ofLanes_lane hc49, mask_eq_ofLanes hp]
    rw [ofLanes_add]
  intro c hc
  rw [hkey]
  exact lane_ofLanes (by
    intro k hk
    have h1 := lane_current_le hp k hk
    have h2 := colHeight_le_6 hp k hk
    have : 2 ^ colHeight p k ≤ 2 ^ 6 := Nat.pow_le_pow_right (by norm_num) h2
    omega) c hc

theorem lane_inj {h h' s s' : Nat} (hs : s < 2 ^ h) (hs' : s' < 2 ^ h')
    (he : s + 2 ^ h - 1 = s' + 2 ^ h' - 1) : h = h' ∧ s = s' := by
  have hp : 0 < 2 ^ h := Nat.pos_pow_of_pos _ (by norm_num)
  have hp' : 0 < 2 ^ h' := Nat.pos_pow_of_pos _ (by norm_num)
  rcases Nat.lt_trichotomy h h' with hlt | heq | hgt
  · have hle : 2 ^ (h + 1) ≤ 2 ^ h' := Nat.pow_le_pow_right (by norm_num) (by omega)
    rw [pow_succ] at hle
    omega
  · subst heq
    omega
  · have hle : 2 ^ (h' + 1) ≤ 2 ^ h := Nat.pow_le_pow_right (by norm_num) (by omega)
    rw [pow_succ] at hle
    omega

/-- Claim C5: `position_key = current + mask` is injective over positions
satisfying the data-model invariants: equal keys force equal `current` and
equal `mask`. -/
theorem claim_C5 (p p' : Position) (hp : Legal p) (hp' : Legal p')
    (hk : position_key p = position_key p') :
    p.current = p'.current ∧ p.mask = p'.mask := by
  have hlanes : ∀ c < 7, colHeight p c = colHeight p' c ∧ lane p.current c = lane p'.current c := by
    intro c hc
    have h1 := lane_key hp c hc
    have h2 := lane_key hp' c hc
    rw [hk] at h1
    rw [h1] at h2
    have hs : lane p.current c < 2 ^ colHeight p c := by
      have := lane_current_le hp c hc
      have hpos : 0 < 2 ^ colHeight p c := Nat.pos_pow_of_pos _ (by norm_num)
      omega
    have hs' : lane p'.current c < 2 ^ colHeight p' c := by
      have := lane_current_le hp' c hc
      have hpos : 0 < 2 ^ colHeight p' c := Nat.pos_pow_of_pos _ (by norm_num)
      omega
    have hpos : 0 < 2 ^ colHeight p c := Nat.pos_pow_of_pos _ (by norm_num)
    have hpos' : 0 < 2 ^ colHeight p' c := Nat.pos_pow_of_pos _ (by norm_num)
    have := lane_inj hs hs' (by omega)
    exact ⟨this.1, this.2⟩
  constructor
  · apply eq_of_lane_eq (current_lt_of_legal hp) (current_lt_of_legal hp')
    intro c hc
    exact (hlanes c hc).2
  · apply eq_of_lane_eq (mask_lt_of_legal hp) (mask_lt_of_legal hp')
    intro c hc
    rw [(lane_mask_of_legal hp c hc).1, (lane_mask_of_legal hp' c hc).1, (hlanes c hc).1]

theorem claim_C5_witness :
    Legal ⟨0, 0, 0⟩ ∧ (⟨0, 0, 0⟩ : Position).current = (⟨0, 0, 0⟩ : Position).current ∧
      (⟨0, 0, 0⟩ : Position).mask = (⟨0, 0, 0⟩ : Position).mask :=
  ⟨by decide, claim_C5 ⟨0, 0, 0⟩ ⟨0, 0, 0⟩ (by decide) (by decide) rfl⟩

/-- Claim C8: every position reachable from the empty position by playing
playable columns satisfies the data-model invariants (`current ⊆ mask`, no
bit outside the 42 playable cells, zero guard bits, `popcount(mask) = ply`,
monotone column heights). -/
theorem claim_C8 (p : Position) (h : Reachable p) : Legal p := by
  induction h with
  | base => decide
  | step hr hc hcp ih => exact legal_play_col ih hc hcp

theorem claim_C8_witness : Legal (play_col ⟨0, 0, 0⟩ 3) :=
  claim_C8 _ (Reachable.step Reachable.base (by decide) (by decide))

/-! ## Claim C4: zero non-losing moves loses within two plies -/

theorem lane_zero (c : Nat) : lane 0 c = 0 := by simp [lane]

theorem pow_and_pred (k : Nat) : 2 ^ k &&& (2 ^ k - 1) = 0 := by
  apply and_eq_zero_of_imp
  intro i hi
  rw [Nat.testBit_two_pow] at hi
  have : k = i := of_decide_eq_true hi
  subst this
  rw [Nat.testBit_two_pow_sub_one]
  simp

theorem and_two_pow_ne_zero {z : Nat} {h : Nat} (hne : 2 ^ h &&& z ≠ 0) :
    z.testBit h = true ∧ 2 ^ h &&& z = 2 ^ h := by
  rw [Nat.land_comm, Nat.and_two_pow] at hne ⊢
  cases hz : z.testBit h
  · rw [hz] at hne
    simp at hne
  · simp

theorem testBit_cwp {o m : Nat} (hm : m &&& board_mask = m) {i : Nat} :
    (compute_winning_positions o m).testBit i = true ↔
      (winning_pattern o).testBit i = true ∧ board_mask.testBit i = true ∧
        m.testBit i = false := by
  unfold compute_winning_positions
  rw [Nat.testBit_land, Nat.testBit_xor]
  constructor
  · intro h
    have h1 : (winning_pattern o).testBit i = true := by
      cases hw : (winning_pattern o).testBit i
      · rw [hw] at h; simp at h
      · rfl
    rw [h1] at h
    simp at h
    cases hmi : m.testBit i
    · rw [hmi] at h
      simp at h
      exact ⟨h1, h, rfl⟩
    · have hbi := testBit_of_and_eq hm hmi
      rw [hmi, hbi] at h
      simp at h
  · rintro ⟨h1, h2, h3⟩
    rw [h1, h2, h3]
    rfl

theorem can_win_next_intro {q : Position} {i : Nat}
    (h1 : (compute_winning_positions q.current q.mask).testBit i = true)
    (h2 : (possible_moves q).testBit i = true) : can_win_next q = true := by
  unfold can_win_next
  simpa using and_ne_zero_of_testBit h1 h2

theorem possible_bit {q : Position} (hq : Legal q) {a : Nat} (ha : a < 7)
    (h5 : colHeight q a ≤ 5) :
    (possible_moves q).testBit (7 * a + colHeight q a) = true := by
  rw [← testBit_lane _ _ _ (by omega), lane_possible hq a ha]
  simp [h5, Nat.testBit_two_pow]

theorem board_bit_iff (i : Nat) : board_mask.testBit i = true ↔ i < 49 ∧ i % 7 < 6 := by
  rcases lt_or_ge i 64 with h | h
  · exact (by decide : ∀ j < 64, (board_mask.testBit j = true ↔ j < 49 ∧ j % 7 < 6)) i h
  · have hf : board_mask.testBit i = false :=
      Nat.testBit_lt_two_pow (lt_of_lt_of_le board_lt
        (Nat.pow_le_pow_right (by norm_num) (by omega)))
    rw [hf]
    constructor
    · intro hh
      cases hh
    · intro hh
      omega

theorem colHeight_play {p : Position} (hp : Legal p) {c : Nat} (hc : c < 7)
    (hcp : can_play p c = true) : ∀ k < 7, colHeight (play_col p c) k =
      if k = c then colHeight p c + 1 else colHeight p k := by
  intro k hk
  show popcountAux 7 (lane (play_col p c).mask k) = _
  rw [play_mask_lanes hp hc hcp k hk]
  by_cases hkc : k = c
  · simp only [hkc, if_pos rfl]
    have h5 := (can_play_iff hp hc).mp hcp
    exact (by decide : ∀ h ≤ 6, popcountAux 7 (2 ^ h - 1) = h) _ (by omega)
  · simp only [if_neg hkc]
    rfl

theorem play_mask_testBit {p : Position} (hp : Legal p) {c : Nat} (hc : c < 7)
    (hcp : can_play p c = true) {i : Nat} (hi : i ≠ 7 * c + colHeight p c) :
    (play_col p c).mask.testBit i = p.mask.testBit i := by
  have h5 := (can_play_iff hp hc).mp hcp
  show (p.mask ||| move_bit p c).testBit i = _
  rw [Nat.testBit_lor, move_bit_eq hp hc h5, Nat.testBit_two_pow]
  have : decide (7 * c + colHeight p c = i) = false := decide_eq_false fun h => hi h.symm
  rw [this, Bool.or_false]

theorem mem_shift_of_compl_zero {x opp : Nat}
    (h : x &&& ((2 ^ 64 - 1) ^^^ (opp >>> 1)) = 0) {i : Nat} (hi : i < 64)
    (hx : x.testBit i = true) : opp.testBit (1 + i) = true := by
  have hf := testBit_false_of_and_zero h hx
  rw [Nat.testBit_xor, Nat.testBit_two_pow_sub_one, Nat.testBit_shiftRight] at hf
  simp [hi] at hf
  exact hf

/-- After playing column `c`, an opponent winning cell at the drop cell of a
DIFFERENT column `a` is still an immediate win for the opponent. -/
theorem case_threat_elsewhere {p : Position} (hp : Legal p) {c : Nat} (hc : c < 7)
    (hcp : can_play p c = true) {a : Nat} (ha : a < 7) (hac : a ≠ c)
    (h5 : colHeight p a ≤ 5)
    (hw : (opponent_winning_positions p).testBit (7 * a + colHeight p a) = true) :
    can_win_next (play_col p c) = true := by
  have hc5 := (can_play_iff hp hc).mp hcp
  have hq := legal_play_col hp hc hcp
  have hdec := (testBit_cwp (o := p.current ^^^ p.mask) hp.2.2.1).mp hw
  have hne : 7 * a + colHeight p a ≠ 7 * c + colHeight p c := by
    have h6a := colHeight_le_6 hp a ha
    have h6c := colHeight_le_6 hp c hc
    omega
  have hqmask : (play_col p c).mask.testBit (7 * a + colHeight p a) = false := by
    rw [play_mask_testBit hp hc hcp hne]
    exact hdec.2.2
  have hcolq : colHeight (play_col p c) a = colHeight p a := by
    rw [colHeight_play hp hc hcp a ha, if_neg hac]
  apply can_win_next_intro (i := 7 * a + colHeight p a)
  · rw [testBit_cwp hq.2.2.1]
    exact ⟨hdec.1, hdec.2.1, hqmask⟩
  · have := possible_bit hq ha (by rw [hcolq]; exact h5)
    rwa [hcolq] at this
  

/-- After playing column `c` whose drop cell sits directly below an opponent
winning cell, the opponent wins on top of it. -/
theorem case_under_threat {p : Position} (hp : Legal p) {c : Nat} (hc : c < 7)
    (hcp : can_play p c = true)
    (hw : (opponent_winning_positions p).testBit (7 * c + (colHeight p c + 1)) = true) :
    can_win_next (play_col p c) = true := by
  have hc5 := (can_play_iff hp hc).mp hcp
  have hq := legal_play_col hp hc hcp
  have hdec := (testBit_cwp (o := p.current ^^^ p.mask) hp.2.2.1).mp hw
  have h15 : colHeight p c + 1 ≤ 5 := by
    have hb := (board_bit_iff _).mp hdec.2.1
    have hmod : (7 * c + (colHeight p c + 1)) % 7 = colHeight p c + 1 := by omega
    omega
  have hne : 7 * c + (colHeight p c + 1) ≠ 7 * c + colHeight p c := by omega
  have hqmask : (play_col p c).mask.testBit (7 * c + (colHeight p c + 1)) = false := by
    rw [play_mask_testBit hp hc hcp hne]
    exact hdec.2.2
  have hcolq : colHeight (play_col p c) c = colHeight p c + 1 := by
    rw [colHeight_play hp hc hcp c hc, if_pos rfl]
  apply can_win_next_intro (i := 7 * c + (colHeight p c + 1))
  · rw [testBit_cwp hq.2.2.1]
    exact ⟨hdec.1, hdec.2.1, hqmask⟩
  · have := possible_bit hq hc (by rw [hcolq]; exact h15)
    rwa [hcolq] at this

theorem forced_lane_char {p : Position} (hp : Legal p) {a : Nat} (ha : a < 7)
    (hne : lane (possible_moves p &&& opponent_winning_positions p) a ≠ 0) :
    colHeight p a ≤ 5 ∧
      lane (possible_moves p &&& opponent_winning_positions p) a = 2 ^ colHeight p a ∧
      (opponent_winning_positions p).testBit (7 * a + colHeight p a) = true := by
  rw [lane_land, lane_possible hp a ha] at hne ⊢
  by_cases h5 : colHeight p a ≤ 5
  · rw [if_pos h5] at hne ⊢
    have hz := and_two_pow_ne_zero hne
    refine ⟨h5, hz.2, ?_⟩
    rw [← testBit_lane _ _ _ (by omega)]
    exact hz.1
  · rw [if_neg h5] at hne
    simp at hne

theorem possible_le_board (p : Position) : possible_moves p ≤ board_mask :=
  Nat.and_le_right

theorem forced_lt (p : Position) :
    possible_moves p &&& opponent_winning_positions p < 2 ^ 49 :=
  lt_of_le_of_lt (le_trans Nat.and_le_left (possible_le_board p)) board_lt

/-- Claim C4: when `non_losing_moves` is empty, playing any playable column
hands the opponent an immediate four-in-a-row on the reply. -/
theorem claim_C4 (p : Position) (hp : Legal p) (h0 : non_losing_moves p = 0)
    (c : Nat) (hc : c < 7) (hcp : can_play p c = true) :
    can_win_next (play_col p c) = true := by
  have hc5 := (can_play_iff hp hc).mp hcp
  have h0' : (if (possible_moves p &&& opponent_winning_positions p) ≠ 0 then
      if (possible_moves p &&& opponent_winning_positions p) &&&
          ((possible_moves p &&& opponent_winning_positions p) - 1) ≠ 0 then (0 : Nat)
      else (possible_moves p &&& opponent_winning_positions p) &&&
        ((2 ^ 64 - 1) ^^^ (opponent_winning_positions p >>> 1))
    else possible_moves p &&& ((2 ^ 64 - 1) ^^^ (opponent_winning_positions p >>> 1))) = 0 :=
    h0
  by_cases hf : (possible_moves p &&& opponent_winning_positions p) = 0
  · -- no forced block: every drop cell sits below an opponent threat
    rw [if_neg (by simpa using hf)] at h0'
    have hposs := possible_bit hp hc hc5
    have hopp := mem_shift_of_compl_zero h0'
      (by have := colHeight_le_6 hp c hc; omega) hposs
    rw [show 1 + (7 * c + colHeight p c) = 7 * c + (colHeight p c + 1) from by omega] at hopp
    exact case_under_threat hp hc hcp hopp
  · rw [if_pos hf] at h0'
    -- some forced cell exists; find its column
    have ha1 : ∃ a, a < 7 ∧ lane (possible_moves p &&& opponent_winning_positions p) a ≠ 0 := by
      by_contra hno
      push_neg at hno
      exact hf (eq_of_lane_eq (forced_lt p) (by norm_num)
        fun k hk => by rw [hno k hk, lane_zero])
    obtain ⟨a, ha, hla⟩ := ha1
    obtain ⟨ha5, hlav, hwa⟩ := forced_lane_char hp ha hla
    by_cases hm : (possible_moves p &&& opponent_winning_positions p) &&&
        ((possible_moves p &&& opponent_winning_positions p) - 1) = 0
    · -- exactly one forced cell, which moreover sits below an opponent threat
      rw [if_neg (by simpa using hm)] at h0'
      by_cases hac : a = c
      · subst hac
        have hbit : (possible_moves p &&& opponent_winning_positions p).testBit
            (7 * a + colHeight p a) = true := by
          rw [← testBit_lane _ _ _ (by omega), hlav]
          simp [Nat.testBit_two_pow]
        have hopp := mem_shift_of_compl_zero h0' (by omega) hbit
        rw [show 1 + (7 * a + colHeight p a) = 7 * a + (colHeight p a + 1) from by omega] at hopp
        exact case_under_threat hp hc hcp hopp
      · exact case_threat_elsewhere hp hc hcp ha hac ha5 hwa
    · -- two or more forced cells: one of them is in a column other than c
      have hb1 : ∃ b, b < 7 ∧ b ≠ a ∧
          lane (possible_moves p &&& opponent_winning_positions p) b ≠ 0 := by
        by_contra hno
        push_neg at hno
        have hsingle : possible_moves p &&& opponent_winning_positions p =
            ofLanes (fun k => if k = a then
              lane (possible_moves p &&& opponent_winning_positions p) a else 0) := by
          apply eq_of_lane_eq (forced_lt p)
          · exact ofLanes_lt fun k hk => by
              by_cases hka : k = a
              · simp [hka, lane_lt_128]
              · simp [hka]
          · intro k hk
            rw [lane_ofLanes (fun k' hk' => by
              by_cases hka : k' = a
              · simp [hka, lane_lt_128]
              · simp [hka]) k hk]
            by_cases hka : k = a
            · simp [hka]
            · rw [if_neg hka]
              exact hno k hk hka
        rw [hlav, ofLanes_single ha, pow_128_eq, ← pow_add] at hsingle
        rw [hsingle] at hm
        exact hm (pow_and_pred _)
      obtain ⟨b, hb, hba, hlb⟩ := hb1
      obtain ⟨hb5, hlbv, hwb⟩ := forced_lane_char hp hb hlb
      by_cases hac : a = c
      · subst hac
        exact case_threat_elsewhere hp hc hcp hb (fun h => hba h) hb5 hwb
      · exact case_threat_elsewhere hp hc hcp ha hac ha5 hwa

theorem claim_C4_witness :
    Legal ⟨2 ^ 35 + 2 ^ 36 + 2 ^ 42, 2 ^ 7 + 2 ^ 14 + 2 ^ 21 + 2 ^ 35 + 2 ^ 36 + 2 ^ 42, 6⟩ ∧
    non_losing_moves
      ⟨2 ^ 35 + 2 ^ 36 + 2 ^ 42, 2 ^ 7 + 2 ^ 14 + 2 ^ 21 + 2 ^ 35 + 2 ^ 36 + 2 ^ 42, 6⟩ = 0 ∧
    can_play
      ⟨2 ^ 35 + 2 ^ 36 + 2 ^ 42, 2 ^ 7 + 2 ^ 14 + 2 ^ 21 + 2 ^ 35 + 2 ^ 36 + 2 ^ 42, 6⟩ 0 = true ∧
    can_win_next (play_col
      ⟨2 ^ 35 + 2 ^ 36 + 2 ^ 42, 2 ^ 7 + 2 ^ 14 + 2 ^ 21 + 2 ^ 35 + 2 ^ 36 + 2 ^ 42, 6⟩ 0) = true :=
  ⟨by decide, by decide, by decide,
    claim_C4 _ (by decide) (by decide) 0 (by decide) (by decide)⟩

/-! ## Transposition table -/

def TT_SIZE : Nat := 1 <<< 23
def TT_MASK : Nat := TT_SIZE - 1

def MIN_SCORE : Int := -((WIDTH * HEIGHT : Int)) / 2 + 3
def MAX_SCORE : Int := ((WIDTH * HEIGHT : Int) + 1) / 2 - 3

/-- The transposition table as a map from slot index to `(key, packed value)`;
`calloc` makes every slot `(0, 0)`. -/
def TT : Type := Nat → Nat × Int

/-- An `int8_t` cast (two's complement wrap into `[-128, 127]`). -/
def int8_cast (v : Int) : Int := (v + 128) % 256 - 128

def tt_init : TT := fun _ => (0, 0)

def tt_store (tt : TT) (key : Nat) (value : Int) : TT :=
  Function.update tt (key &&& TT_MASK) (key, int8_cast (value - MIN_SCORE + 1))

def tt_probe (tt : TT) (key : Nat) : Option Int :=
  let e := tt (key &&& TT_MASK)
  if e.1 == key && e.2 != 0 then some (e.2 + MIN_SCORE - 1) else none

/-! ## Solver (negamax with iterative null-window refinement)

The C recursion terminates because the ply grows toward the draw cutoff; the
embedding makes that measure explicit as a fuel argument (`negamax` passes
fuel `WIDTH * HEIGHT + 1`, which the cutoff at ply 40 keeps from ever
reaching zero). -/

/-- One conditional swap of the source's double-loop move sort. -/
def sortMovesStep (a : Array (Nat × Nat)) (i j : Nat) : Array (Nat × Nat) :=
  if h : i < a.size ∧ j < a.size then
    let mi := a.get ⟨i, h.1⟩
    let mj := a.get ⟨j, h.2⟩
    if mi.2 < mj.2 then
      (a.set ⟨i, h.1⟩ mj).set ⟨j, by rw [Array.size_set]; exact h.2⟩ mi
    else a
  else a

/-- The source's in-place exchange sort: descending by move score. -/
def sortMoves (a : Array (Nat × Nat)) : Array (Nat × Nat) :=
  (List.range a.size).foldl (fun acc i =>
    (List.range a.size).foldl (fun acc2 j =>
      if i < j then sortMovesStep acc2 i j else acc2) acc) a

mutual

def negamaxAux : Nat → Position → Int → Int → TT → Int × TT
  | 0, _, _, _, tt => (0, tt)  -- never reached with the fuel `negamax` passes
  | fuel + 1, p, alpha, beta, tt =>
    if can_win_next p then (half ((WIDTH * HEIGHT : Int) + 1 - p.ply), tt)
    else
      let possible := non_losing_moves p
      if possible = 0 then (half (-((WIDTH * HEIGHT : Int) - p.ply)), tt)
      else if WIDTH * HEIGHT - 2 ≤ p.ply then (0, tt)
      else
        let mn := half (-((WIDTH * HEIGHT : Int) - 2 - p.ply))
        if alpha < mn ∧ beta ≤ mn then (mn, tt)
        else
          let alpha := if alpha < mn then mn else alpha
          let mx := half ((WIDTH * HEIGHT : Int) - 1 - p.ply)
          if mx < beta ∧ mx ≤ alpha then (mx, tt)
          else
            let beta := if mx < beta then mx else beta
            let key := position_key p
            match tt_probe tt key with
            | some v =>
              if beta ≤ v then (v, tt)
              else if v ≤ alpha then (v, tt)
              else negamaxSearch fuel p possible alpha beta key tt
            | none => negamaxSearch fuel p possible alpha beta key tt
termination_by fuel _ _ _ _ => (3 * fuel, 0)

def negamaxSearch (fuel : Nat) (p : Position) (possible : Nat) (alpha beta : Int)
    (key : Nat) (tt : TT) : Int × TT :=
  let movesList := column_order.foldl (fun acc col =>
    let move := possible &&& column_mask_col col
    if move ≠ 0 then acc ++ [(move, move_score p move)] else acc) ([] : List (Nat × Nat))
  let sorted := (sortMoves movesList.toArray).toList
  let r := searchLoop fuel p sorted alpha beta (-(WIDTH * HEIGHT : Int)) tt
  (r.1, tt_store r.2 key r.1)
termination_by (3 * fuel + 2, 0)

def searchLoop : Nat → Position → List (Nat × Nat) → Int → Int → Int → TT → Int × TT
  | _, _, [], _, _, best, tt => (best, tt)
  | fuel, p, m :: rest, alpha, beta, best, tt =>
    let child : Position :=
      { current := p.current ^^^ p.mask, mask := p.mask ||| m.1, ply := p.ply + 1 }
    let r := negamaxAux fuel child (-beta) (-alpha) tt
    let score := -r.1
    let best' := if best < score then score else best
    let alpha' := if alpha < score then score else alpha
    if beta ≤ alpha' then (best', r.2)
    else searchLoop fuel p rest alpha' beta best' r.2
termination_by fuel _ ms _ _ _ _ => (3 * fuel + 1, ms.length)

end

def negamax (p : Position) (alpha beta : Int) (tt : TT) : Int × TT :=
  negamaxAux (WIDTH * HEIGHT + 1) p alpha beta tt

/-- The bisection loop of `solve`; the interval shrinks every iteration, so
fuel `(mx - mn).toNat + 1` never runs out. -/
def solveAux : Nat → Position → Int → Int → TT → Int × TT
  | 0, _, mn, _, tt => (mn, tt)
  | fuel + 1, p, mn, mx, tt =>
    if mn < mx then
      let med0 := mn + half (mx - mn)
      let med := if med0 ≤ 0 ∧ half mn < med0 then half mn
        else if 0 ≤ med0 ∧ med0 < half mx then half mx
        else med0
      let r := negamax p med (med + 1) tt
      if r.1 ≤ med then solveAux fuel p mn r.1 r.2
      else solveAux fuel p r.1 mx r.2
    else (mn, tt)

/-- `solve`: null-window iterative refinement; positive means the side to
move wins, zero draw, negative loss. -/
def solve (p : Position) (tt : TT) : Int × TT :=
  if can_win_next p then (half ((WIDTH * HEIGHT : Int) + 1 - p.ply), tt)
  else
    let mn := half (-((WIDTH * HEIGHT : Int) - p.ply))
    let mx := half ((WIDTH * HEIGHT : Int) + 1 - p.ply)
    solveAux ((mx - mn).toNat + 1) p mn mx tt

/-! ## Classifier -/

/-- `is_obvious_move`: win-in-1, or a forced block of an opponent
win-in-1, at the drop cell of `col`. -/
def is_obvious_move (p : Position) (col : Nat) : Bool :=
  let my_winning := compute_winning_positions p.current p.mask
  let move := move_bit p col
  if my_winning &&& move != 0 then true
  else opponent_winning_positions p &&& move != 0

/-- The per-column evaluation loop of `analyze_position`; the state is
`(winning_cols, draw_count, loss_count, tt)`. -/
def analyzeLoop (p : Position) (possible : Nat) :
    List Nat → List Nat × Nat × Nat × TT → List Nat × Nat × Nat × TT
  | [], st => st
  | col :: rest, st =>
    if can_play p col = false then analyzeLoop p possible rest st
    else if possible &&& column_mask_col col == 0 then analyzeLoop p possible rest st
    else
      let child := play_col p col
      let r := solve child st.2.2.2
      let score := -r.1
      if 0 < score then analyzeLoop p possible rest (st.1 ++ [col], st.2.1, st.2.2.1, r.2)
      else if score = 0 then analyzeLoop p possible rest (st.1, st.2.1 + 1, st.2.2.1, r.2)
      else analyzeLoop p possible rest (st.1, st.2.1, st.2.2.1 + 1, r.2)

/-- `analyze_position`: `some col` when the position is critical (exactly
one winning move, and it is not obvious), `none` otherwise. -/
def analyze_position (p : Position) (tt : TT) : Option Nat × TT :=
  if p.ply < MIN_PLY ∨ MAX_PLY < p.ply then (none, tt)
  else if can_win_next p then (none, tt)
  else
    let possible := non_losing_moves p
    if possible = 0 then (none, tt)
    else
      let st := analyzeLoop p possible (List.range WIDTH) ([], 0, 0, tt)
      match st.1 with
      | [col] => if is_obvious_move p col then (none, st.2.2.2) else (some col, st.2.2.2)
      | _ => (none, st.2.2.2)

/-! ## Enumerator -/

/-- One node of `generate_positions`: the entries this node itself
contributes, together with the updated transposition table. -/
def nodeEntries (p : Position) (tt : TT) : List (Nat × Nat) × TT :=
  if MIN_PLY ≤ p.ply ∧ p.ply ≤ MAX_PLY then
    match analyze_position p tt with
    | (some col, tt1) => ([(position_key p, col)], tt1)
    | (none, tt1) => ([], tt1)
  else ([], tt)

/-- The recursive enumerator.  The C recursion stops at `ply ≥ MAX_PLY`, so
the fuel `MAX_PLY + 1` that `generate_positions` passes never runs out. -/
def genAux : Nat → Position → Nat → TT → List (Nat × Nat) × TT
  | 0, _, _, tt => ([], tt)
  | fuel + 1, p, depth, tt =>
    let node := nodeEntries p tt
    if MAX_PLY ≤ p.ply then node
    else if can_win_next p then node
    else
      (List.range WIDTH).foldl (fun st col =>
        if can_play p col then
          let r := genAux fuel (play_col p col) (depth + 1) st.2
          (st.1 ++ r.1, r.2)
        else st) node

/-- `generate_positions`: depth-first enumeration collecting the critical
entries `(position_key, winning_col)`. -/
def generate_positions (p : Position) (depth : Nat) (tt : TT) : List (Nat × Nat) × TT :=
  genAux (MAX_PLY + 1) p depth tt

/-! ## Primes and the serialized hash table (`save_database`) -/

/-- The odd-divisor loop of `is_prime`; fuel `n` is ample since the loop
stops once `i * i > n`. -/
def is_prime_aux (n : Nat) : Nat → Nat → Bool
  | 0, _ => true  -- never reached with the fuel `is_prime` passes
  | f + 1, i =>
    if i * i ≤ n then (if n % i = 0 then false else is_prime_aux n f (i + 2))
    else true

/-- Trial-division primality test of the source. -/
def is_prime (n : Nat) : Bool :=
  if n < 2 then false
  else if n = 2 then true
  else if n % 2 = 0 then false
  else is_prime_aux n n 3

/-- The `while (!is_prime(n)) n++` loop; by Bertrand's postulate a prime
appears within the fuel `next_prime` passes. -/
def next_prime_aux : Nat → Nat → Nat
  | 0, n => n  -- never reached with the fuel `next_prime` passes
  | f + 1, n => if is_prime n then n else next_prime_aux f (n + 1)

/-- Smallest prime `≥ n`. -/
def next_prime (n : Nat) : Nat := next_prime_aux (n + 3) n

/-- Linear probe for the first empty slot (stored key 0), as in the
serializer's `while (keys[idx] != 0)` loop; the fuel is the table size. -/
def findEmpty (keys : List Nat) : Nat → Nat → Option Nat
  | _, 0 => none
  | idx, f + 1 =>
    if keys.getD idx 0 = 0 then some idx
    else findEmpty keys ((idx + 1) % keys.length) f

/-- The hash-table build of `save_database`: `table_size = next_prime(2N)`
slots, zeroed, then every entry inserted by linear probing; the stored key
is `(uint32_t)(hash >> 16)` and the stored value the winning column. -/
def buildTable (entries : List (Nat × Nat)) : List Nat × List Nat :=
  let table_size := next_prime (entries.length * 2)
  entries.foldl (fun kv e =>
    let partial_key := (e.1 >>> 16) % 2 ^ 32
    match findEmpty kv.1 (e.1 % table_size) table_size with
    | some idx => (kv.1.set idx partial_key, kv.2.set idx e.2)
    | none => kv)
    (List.replicate table_size 0, List.replicate table_size 0)

/-- Modelled from the spec: the consumer lookup procedure of §6 (the
consumer agent is not part of this repository).  `idx = hash mod
table_size`; probe linearly; a slot matches when the stored 32-bit partial
key equals `hash >> 16` truncated to 32 bits (`key_bytes = 4`); an empty
slot (stored key 0) ends the probe with "not critical". -/
def lookupAux (keys values : List Nat) (hash : Nat) : Nat → Nat → Option Nat
  | _, 0 => none
  | idx, f + 1 =>
    if keys.getD idx 0 = 0 then none
    else if keys.getD idx 0 = (hash >>> 16) % 2 ^ 32 then some (values.getD idx 0)
    else lookupAux keys values hash ((idx + 1) % keys.length) f

/-- Modelled from the spec: full consumer lookup of a position hash. -/
def db_lookup (keys values : List Nat) (hash : Nat) : Option Nat :=
  lookupAux keys values hash (hash % keys.length) keys.length

/-! ## Claim C6: obvious winning moves are never emitted -/

/-- Claim C6: whatever column `analyze_position` returns is not an obvious
move (neither a win-in-one nor a forced block); a position whose unique
winning move is obvious is therefore rejected and contributes no entry. -/
theorem claim_C6 (p : Position) (tt : TT) :
    (analyze_position p tt).1.elim True (fun c => is_obvious_move p c = false) := by
  unfold analyze_position
  dsimp only
  split
  · exact trivial
  · split
    · exact trivial
    · split
      · exact trivial
      · split
        · rename_i col heq
          split
          · exact trivial
          · rename_i hobv
            simpa using hobv
        · exact trivial

/-! ## Claim C10: returned columns are playable non-losing columns 0..6 -/

theorem exists_testBit {x : Nat} (h : x ≠ 0) : ∃ i, x.testBit i = true := by
  by_contra hno
  push_neg at hno
  apply h
  apply Nat.eq_of_testBit_eq
  intro i
  rw [Nat.zero_testBit]
  cases hb : x.testBit i
  · rfl
  · exact absurd hb (hno i)

theorem colmask_bit {c i : Nat} :
    (column_mask_col c).testBit i = true ↔ c * 7 ≤ i ∧ i < c * 7 + 6 := by
  unfold column_mask_col
  rw [show ((1 : Nat) <<< HEIGHT) - 1 = 2 ^ 6 - 1 from by decide]
  rw [Nat.testBit_shiftLeft, Nat.testBit_two_pow_sub_one]
  simp only [HEIGHT, Bool.and_eq_true, decide_eq_true_eq, ge_iff_le]
  omega

theorem nlm_subset_possible (p : Position) :
    ∀ i, (non_losing_moves p).testBit i = true → (possible_moves p).testBit i = true := by
  intro i hi
  unfold non_losing_moves at hi
  dsimp only at hi
  split at hi
  · split at hi
    · rw [Nat.zero_testBit] at hi
      cases hi
    · rw [Nat.testBit_land, Nat.testBit_land] at hi
      exact ((Bool.and_eq_true _ _).mp ((Bool.and_eq_true _ _).mp hi).1).1
  · rw [Nat.testBit_land] at hi
    exact ((Bool.and_eq_true _ _).mp hi).1

theorem nlm_col_char {p : Position} (hp : Legal p) {c : Nat} (hc : c < 7)
    (h : non_losing_moves p &&& column_mask_col c ≠ 0) :
    can_play p c = true ∧ move_bit p c ≠ 0 ∧
      move_bit p c &&& non_losing_moves p = move_bit p c := by
  obtain ⟨i, hi⟩ := exists_testBit h
  rw [Nat.testBit_land] at hi
  obtain ⟨hn, hm⟩ := (Bool.and_eq_true _ _).mp hi
  have hposs := nlm_subset_possible p i hn
  obtain ⟨hge, hlt⟩ := colmask_bit.mp hm
  obtain ⟨r, hr6, hir⟩ : ∃ r, r < 6 ∧ i = 7 * c + r := ⟨i - c * 7, by omega, by omega⟩
  subst hir
  rw [← testBit_lane _ _ _ (by omega), lane_possible hp c hc] at hposs
  by_cases h5 : colHeight p c ≤ 5
  · rw [if_pos h5, Nat.testBit_two_pow] at hposs
    have hrc : colHeight p c = r := of_decide_eq_true hposs
    refine ⟨(can_play_iff hp hc).mpr h5, ?_, ?_⟩
    · rw [move_bit_eq hp hc h5]
      exact (Nat.pos_pow_of_pos _ (by norm_num)).ne'
    · rw [move_bit_eq hp hc h5]
      apply and_eq_self_of_imp
      intro j hj
      rw [Nat.testBit_two_pow] at hj
      have hji : 7 * c + colHeight p c = j := of_decide_eq_true hj
      subst hji
      rw [hrc]
      exact hn
  · rw [if_neg h5, Nat.zero_testBit] at hposs
    cases hposs

theorem analyzeLoop_mem {p : Position} {possible : Nat} :
    ∀ (cols : List Nat) (st : List Nat × Nat × Nat × TT) (c : Nat),
      c ∈ (analyzeLoop p possible cols st).1 →
      c ∈ st.1 ∨ (c ∈ cols ∧ can_play p c = true ∧ possible &&& column_mask_col c ≠ 0) := by
  intro cols
  induction cols with
  | nil =>
    intro st c hc
    exact Or.inl hc
  | cons col rest ih =>
    intro st c hc
    simp only [analyzeLoop] at hc
    by_cases h1 : can_play p col = false
    · rw [if_pos h1] at hc
      rcases ih st c hc with h | h
      · exact Or.inl h
      · exact Or.inr ⟨List.mem_cons_of_mem _ h.1, h.2⟩
    · rw [if_neg h1] at hc
      have h1' : can_play p col = true := by
        revert h1
        cases can_play p col <;> simp
      by_cases h2 : (possible &&& column_mask_col col == 0) = true
      · rw [if_pos h2] at hc
        rcases ih st c hc with h | h
        · exact Or.inl h
        · exact Or.inr ⟨List.mem_cons_of_mem _ h.1, h.2⟩
      · rw [if_neg h2] at hc
        have h2' : possible &&& column_mask_col col ≠ 0 := by simpa using h2
        split at hc
        · rcases ih _ c hc with h | h
          · rcases List.mem_append.mp h with h' | h'
            · exact Or.inl h'
            · have hcc : c = col := by simpa using h'
              subst hcc
              exact Or.inr ⟨List.mem_cons_self _ _, h1', h2'⟩
          · exact Or.inr ⟨List.mem_cons_of_mem _ h.1, h.2⟩
        · split at hc
          · rcases ih _ c hc with h | h
            · exact Or.inl h
            · exact Or.inr ⟨List.mem_cons_of_mem _ h.1, h.2⟩
          · rcases ih _ c hc with h | h
            · exact Or.inl h
            · exact Or.inr ⟨List.mem_cons_of_mem _ h.1, h.2⟩

/-- Structural characterization of a returned column: it came from the
evaluation loop, so it passed the `can_play` and membership guards. -/
theorem analyze_some_char (p : Position) (tt : TT) :
    (analyze_position p tt).1.elim True (fun c =>
      c < 7 ∧ can_play p c = true ∧ non_losing_moves p &&& column_mask_col c ≠ 0) := by
  unfold analyze_position
  dsimp only
  split
  · exact trivial
  · split
    · exact trivial
    · split
      · exact trivial
      · split
        · rename_i col heq
          split
          · exact trivial
          · have hmem : col ∈ (analyzeLoop p (non_losing_moves p)
                (List.range WIDTH) ([], 0, 0, tt)).1 := by
              rw [heq]
              exact List.mem_singleton_self _
            rcases analyzeLoop_mem _ _ _ hmem with h | h
            · cases h
            · exact ⟨by simpa [WIDTH] using List.mem_range.mp h.1, h.2⟩
        · exact trivial

theorem nodeEntries_col {p : Position} {tt : TT} :
    ∀ e ∈ (nodeEntries p tt).1, e.2 < 7 := by
  intro e he
  unfold nodeEntries at he
  by_cases hw : MIN_PLY ≤ p.ply ∧ p.ply ≤ MAX_PLY
  · rw [if_pos hw] at he
    rcases hres : analyze_position p tt with ⟨o, tt1⟩
    rw [hres] at he
    cases o with
    | some col =>
      simp only [List.mem_singleton] at he
      subst he
      have hchar := analyze_some_char p tt
      rw [hres] at hchar
      exact hchar.1
    | none =>
      simp at he
  · rw [if_neg hw] at he
    simp at he

theorem genAux_col : ∀ (fuel : Nat) (p : Position) (d : Nat) (tt : TT),
    ∀ e ∈ (genAux fuel p d tt).1, e.2 < 7 := by
  intro fuel
  induction fuel with
  | zero =>
    intro p d tt e he
    simp [genAux] at he
  | succ fuel ih =>
    intro p d tt e he
    simp only [genAux] at he
    by_cases h1 : MAX_PLY ≤ p.ply
    · rw [if_pos h1] at he
      exact nodeEntries_col e he
    · rw [if_neg h1] at he
      by_cases h2 : can_win_next p = true
      · rw [if_pos h2] at he
        exact nodeEntries_col e he
      · rw [if_neg h2] at he
        have hfold : ∀ (cols : List Nat) (st : List (Nat × Nat) × TT),
            (∀ e' ∈ st.1, e'.2 < 7) →
            ∀ e' ∈ (cols.foldl (fun st col =>
              if can_play p col then
                let r := genAux fuel (play_col p col) (d + 1) st.2
                (st.1 ++ r.1, r.2)
              else st) st).1, e'.2 < 7 := by
          intro cols
          induction cols with
          | nil =>
            intro st hst e' he'
            exact hst e' he'
          | cons col rest ihc =>
            intro st hst e' he'
            rw [List.foldl_cons] at he'
            refine ihc _ ?_ e' he'
            by_cases hcp : can_play p col = true
            · rw [if_pos hcp]
              intro e'' he''
              rcases List.mem_append.mp he'' with h | h
              · exact hst e'' h
              · exact ih _ _ _ e'' h
            · rw [if_neg (by simpa using hcp)]
              exact hst
        exact hfold _ _ nodeEntries_col e he

theorem insert_fold_values : ∀ (todo : List (Nat × Nat)) (ts : Nat) (kv : List Nat × List Nat),
    (∀ e ∈ todo, e.2 < 7) → (∀ v ∈ kv.2, v < 7) →
    ∀ v ∈ (todo.foldl (fun kv e =>
      let partial_key := (e.1 >>> 16) % 2 ^ 32
      match findEmpty kv.1 (e.1 % ts) ts with
      | some idx => (kv.1.set idx partial_key, kv.2.set idx e.2)
      | none => kv) kv).2, v < 7 := by
  intro todo
  induction todo with
  | nil =>
    intro ts kv _ hkv v hv
    exact hkv v hv
  | cons e rest ih =>
    intro ts kv htodo hkv v hv
    rw [List.foldl_cons] at hv
    refine ih ts _ (fun e' he' => htodo e' (List.mem_cons_of_mem _ he')) ?_ v hv
    dsimp only
    rcases hfe : findEmpty kv.1 (e.1 % ts) ts with _ | idx
    · exact hkv
    · intro v' hv'
      rcases List.mem_or_eq_of_mem_set hv' with h | h
      · exact hkv v' h
      · rw [h]
        exact htodo e (List.mem_cons_self _ _)

/-- Claim C10: `analyze_position` returns `none` or a column `c ≤ 6` that is
playable and whose drop cell is a member of `non_losing_moves`; consequently
every value byte of the serialized table is a column index `0..6`. -/
theorem claim_C10 (p : Position) (tt : TT) :
    (Legal p → (analyze_position p tt).1.elim True (fun c =>
      c ≤ 6 ∧ can_play p c = true ∧ move_bit p c ≠ 0 ∧
        move_bit p c &&& non_losing_moves p = move_bit p c)) ∧
    (∀ d, ∀ e ∈ (generate_positions p d tt).1, e.2 ≤ 6) ∧
    (∀ d, ∀ v ∈ (buildTable (generate_positions p d tt).1).2, v ≤ 6) := by
  refine ⟨?_, ?_, ?_⟩
  · intro hL
    have hchar := analyze_some_char p tt
    rcases ha : (analyze_position p tt).1 with _ | c
    · exact trivial
    · rw [ha] at hchar
      obtain ⟨hc7, hcp, hcm⟩ := hchar
      obtain ⟨_, hmb0, hmbs⟩ := nlm_col_char hL hc7 hcm
      exact ⟨by omega, hcp, hmb0, hmbs⟩
  · intro d e he
    have := genAux_col _ _ _ _ e he
    omega
  · intro d v hv
    unfold buildTable at hv
    have := insert_fold_values (generate_positions p d tt).1 _ _
      (fun e he => genAux_col _ _ _ _ e he)
      (fun v' hv' => by
        rw [List.eq_of_mem_replicate hv']
        norm_num) v hv
    omega

theorem claim_C10_witness :
    Legal ⟨0, 63 + (63 <<< 7) + (63 <<< 14) + (63 <<< 21) + (31 <<< 28), 29⟩ ∧
    (analyze_position ⟨0, 63 + (63 <<< 7) + (63 <<< 14) + (63 <<< 21) + (31 <<< 28), 29⟩
        tt_init).1.elim True (fun c =>
      c ≤ 6 ∧ can_play ⟨0, 63 + (63 <<< 7) + (63 <<< 14) + (63 <<< 21) + (31 <<< 28), 29⟩ c = true ∧
      move_bit ⟨0, 63 + (63 <<< 7) + (63 <<< 14) + (63 <<< 21) + (31 <<< 28), 29⟩ c ≠ 0 ∧
      move_bit ⟨0, 63 + (63 <<< 7) + (63 <<< 14) + (63 <<< 21) + (31 <<< 28), 29⟩ c &&&
        non_losing_moves ⟨0, 63 + (63 <<< 7) + (63 <<< 14) + (63 <<< 21) + (31 <<< 28), 29⟩ =
        move_bit ⟨0, 63 + (63 <<< 7) + (63 <<< 14) + (63 <<< 21) + (31 <<< 28), 29⟩ c) ∧
    (∀ v ∈ (buildTable (generate_positions
        ⟨0, 63 + (63 <<< 7) + (63 <<< 14) + (63 <<< 21) + (31 <<< 28), 29⟩ 0 tt_init).1).2,
      v ≤ 6) :=
  ⟨by decide,
    (claim_C10 _ tt_init).1 (by decide),
    (claim_C10 _ tt_init).2.2 0⟩

/-! ## Claim C7: every emitted entry lies in the ply window -/

/-- The ply a legal position's key encodes: per column, the key lane is
`stones + 2 ^ height - 1`, whose successor has base-2 logarithm `height`. -/
def keyPly (k : Nat) : Nat :=
  lg2 (lane k 0 + 1) + lg2 (lane k 1 + 1) + lg2 (lane k 2 + 1) + lg2 (lane k 3 + 1) +
    lg2 (lane k 4 + 1) + lg2 (lane k 5 + 1) + lg2 (lane k 6 + 1)

theorem lg2_char : ∀ h < 7, ∀ s < 128, s < 2 ^ h → lg2 (s + 2 ^ h) = h := by decide

theorem keyPly_legal {p : Position} (hp : Legal p) : keyPly (position_key p) = p.ply := by
  have hply := hp.2.2.2.2.1
  rw [popcount64_lanes (mask_lt_of_legal hp)] at hply
  unfold keyPly
  have e : ∀ c < 7, lg2 (lane (position_key p) c + 1) = colHeight p c := by
    intro c hc
    rw [lane_key hp c hc]
    have hs := lane_current_le hp c hc
    have hh := colHeight_le_6 hp c hc
    have hpos : 0 < 2 ^ colHeight p c := Nat.pos_pow_of_pos _ (by norm_num)
    have harg : lane p.current c + (2 ^ colHeight p c - 1) + 1 =
        lane p.current c + 2 ^ colHeight p c := by omega
    rw [harg]
    exact lg2_char _ (by omega) _ (lt_of_le_of_lt hs (by
      have : 2 ^ colHeight p c ≤ 2 ^ 6 := Nat.pow_le_pow_right (by norm_num) hh
      omega)) (by omega)
  rw [e 0 (by norm_num), e 1 (by norm_num), e 2 (by norm_num), e 3 (by norm_num),
    e 4 (by norm_num), e 5 (by norm_num), e 6 (by norm_num)]
  exact hply

theorem nodeEntries_window {p : Position} {tt : TT} (hp : Legal p) :
    ∀ e ∈ (nodeEntries p tt).1, MIN_PLY ≤ keyPly e.1 ∧ keyPly e.1 ≤ MAX_PLY := by
  intro e he
  unfold nodeEntries at he
  by_cases hw : MIN_PLY ≤ p.ply ∧ p.ply ≤ MAX_PLY
  · rw [if_pos hw] at he
    rcases hres : analyze_position p tt with ⟨o, tt1⟩
    rw [hres] at he
    cases o with
    | some col =>
      simp only [List.mem_singleton] at he
      subst he
      rw [keyPly_legal hp]
      exact hw
    | none =>
      simp at he
  · rw [if_neg hw] at he
    simp at he

theorem genAux_window : ∀ (fuel : Nat) (p : Position) (d : Nat) (tt : TT), Legal p →
    ∀ e ∈ (genAux fuel p d tt).1, MIN_PLY ≤ keyPly e.1 ∧ keyPly e.1 ≤ MAX_PLY := by
  intro fuel
  induction fuel with
  | zero =>
    intro p d tt hp e he
    simp [genAux] at he
  | succ fuel ih =>
    intro p d tt hp e he
    simp only [genAux] at he
    by_cases h1 : MAX_PLY ≤ p.ply
    · rw [if_pos h1] at he
      exact nodeEntries_window hp e he
    · rw [if_neg h1] at he
      by_cases h2 : can_win_next p = true
      · rw [if_pos h2] at he
        exact nodeEntries_window hp e he
      · rw [if_neg h2] at he
        have hfold : ∀ (cols : List Nat) (st : List (Nat × Nat) × TT),
            (∀ c ∈ cols, c < 7) →
            (∀ e' ∈ st.1, MIN_PLY ≤ keyPly e'.1 ∧ keyPly e'.1 ≤ MAX_PLY) →
            ∀ e' ∈ (cols.foldl (fun st col =>
              if can_play p col then
                let r := genAux fuel (play_col p col) (d + 1) st.2
                (st.1 ++ r.1, r.2)
              else st) st).1, MIN_PLY ≤ keyPly e'.1 ∧ keyPly e'.1 ≤ MAX_PLY := by
          intro cols
          induction cols with
          | nil =>
            intro st _ hst e' he'
            exact hst e' he'
          | cons col rest ihc =>
            intro st hcols hst e' he'
            rw [List.foldl_cons] at he'
            refine ihc _ (fun c hc => hcols c (List.mem_cons_of_mem _ hc)) ?_ e' he'
            by_cases hcp : can_play p col = true
            · rw [if_pos hcp]
              intro e'' he''
              rcases List.mem_append.mp he'' with h | h
              · exact hst e'' h
              · exact ih _ _ _ (legal_play_col hp (hcols col (List.mem_cons_self _ _)) hcp)
                  e'' h
            · rw [if_neg (by simpa using hcp)]
              exact hst
        exact hfold _ _ (fun c hc => by simpa [WIDTH] using List.mem_range.mp hc)
          (nodeEntries_window hp) e he

theorem genAux_prune (fuel : Nat) (p : Position) (d : Nat) (tt : TT)
    (h : MAX_PLY ≤ p.ply ∨ can_win_next p = true) :
    (genAux (fuel + 1) p d tt).1 = (nodeEntries p tt).1 := by
  simp only [genAux]
  by_cases h1 : MAX_PLY ≤ p.ply
  · rw [if_pos h1]
  · rw [if_neg h1]
    rcases h with h | h
    · exact absurd h h1
    · rw [if_pos h]

/-- Claim C7: every entry the enumerator collects comes from a position
whose ply lies in `[MIN_PLY, MAX_PLY] = [15, 28]` (read off the entry's key
by `keyPly`), and the enumerator prunes — analyzing only the node itself —
as soon as `ply ≥ MAX_PLY` or the side to move can win immediately. -/
theorem claim_C7 (p : Position) (d : Nat) (tt : TT) :
    (Legal p → ∀ e ∈ (generate_positions p d tt).1,
      MIN_PLY ≤ keyPly e.1 ∧ keyPly e.1 ≤ MAX_PLY) ∧
    (MAX_PLY ≤ p.ply ∨ can_win_next p = true →
      (generate_positions p d tt).1 = (nodeEntries p tt).1) := by
  constructor
  · intro hp e he
    exact genAux_window _ p d tt hp e he
  · intro h
    exact genAux_prune MAX_PLY p d tt h

theorem claim_C7_witness :
    Legal ⟨0, 63 + (63 <<< 7) + (63 <<< 14) + (63 <<< 21) + (31 <<< 28), 29⟩ ∧
    (MAX_PLY ≤ (29 : Nat) ∨ can_win_next
      ⟨0, 63 + (63 <<< 7) + (63 <<< 14) + (63 <<< 21) + (31 <<< 28), 29⟩ = true) ∧
    (∀ e ∈ (generate_positions
        ⟨0, 63 + (63 <<< 7) + (63 <<< 14) + (63 <<< 21) + (31 <<< 28), 29⟩ 0 tt_init).1,
      MIN_PLY ≤ keyPly e.1 ∧ keyPly e.1 ≤ MAX_PLY) ∧
    (generate_positions
        ⟨0, 63 + (63 <<< 7) + (63 <<< 14) + (63 <<< 21) + (31 <<< 28), 29⟩ 0 tt_init).1 =
      (nodeEntries ⟨0, 63 + (63 <<< 7) + (63 <<< 14) + (63 <<< 21) + (31 <<< 28), 29⟩
        tt_init).1 :=
  ⟨by decide, Or.inl (by decide),
    (claim_C7 _ 0 tt_init).1 (by decide),
    (claim_C7 _ 0 tt_init).2 (Or.inl (by decide))⟩

/-! ## Claim C9: table sizing by the smallest prime at least 2N -/

theorem is_prime_aux_iff : ∀ (f : Nat) (n i : Nat), i % 2 = 1 → 3 ≤ i →
    n < (i + 2 * f) * (i + 2 * f) →
    (is_prime_aux n f i = true ↔
      ∀ j, i ≤ j → j % 2 = 1 → j * j ≤ n → ¬ j ∣ n) := by
  intro f
  induction f with
  | zero =>
    intro n i hodd h3 hbound
    simp only [Nat.mul_zero, Nat.add_zero] at hbound
    simp only [is_prime_aux]
    constructor
    · intro _ j hij _ hsq _
      have : i * i ≤ j * j := Nat.mul_le_mul hij hij
      omega
    · intro _
      trivial
  | succ f ih =>
    intro n i hodd h3 hbound
    simp only [is_prime_aux]
    by_cases hsq : i * i ≤ n
    · rw [if_pos hsq]
      by_cases hdvd : n % i = 0
      · rw [if_pos hdvd]
        constructor
        · intro h
          cases h
        · intro hall
          exact absurd (Nat.dvd_of_mod_eq_zero hdvd) (hall i (le_refl i) hodd hsq)
      · rw [if_neg hdvd]
        rw [ih n (i + 2) (by omega) (by omega) (by
          have : i + 2 + 2 * f = i + 2 * (f + 1) := by ring
          rw [this]
          exact hbound)]
        constructor
        · intro hall j hij hjodd hjsq hjd
          rcases Nat.lt_or_ge j (i + 2) with hj2 | hj2
          · have hji : j = i ∨ j = i + 1 := by omega
            rcases hji with h | h
            · subst h
              obtain ⟨k, rfl⟩ := hjd
              exact hdvd (Nat.mul_mod_right _ _)
            · omega
          · exact hall j hj2 hjodd hjsq hjd
        · intro hall j hij hjodd hjsq hjd
          exact hall j (by omega) hjodd hjsq hjd
    · rw [if_neg hsq]
      constructor
      · intro _ j hij _ hjsq _
        have : i * i ≤ j * j := Nat.mul_le_mul hij hij
        omega
      · intro _
        trivial

theorem is_prime_iff (n : Nat) : is_prime n = true ↔ Nat.Prime n := by
  unfold is_prime
  by_cases h2 : n < 2
  · rw [if_pos h2]
    constructor
    · intro h
      cases h
    · intro hp
      exact absurd hp.two_le (by omega)
  · rw [if_neg h2]
    by_cases he : n = 2
    · subst he
      simp [Nat.prime_two]
    · rw [if_neg he]
      by_cases hev : n % 2 = 0
      · rw [if_pos hev]
        constructor
        · intro h
          cases h
        · intro hp
          have h2d : (2 : Nat) ∣ n := Nat.dvd_of_mod_eq_zero hev
          rcases hp.eq_one_or_self_of_dvd 2 h2d with h | h
          · omega
          · exact (he h.symm).elim
      · rw [if_neg hev]
        have h3 : 3 ≤ n := by omega
        rw [is_prime_aux_iff n n 3 (by norm_num) (by norm_num) (by nlinarith)]
        constructor
        · intro hall
          by_contra hnp
          have hm := Nat.minFac_sq_le_self (by omega : 0 < n) hnp
          have hmp := Nat.minFac_prime (by omega : n ≠ 1)
          have hmd := Nat.minFac_dvd n
          have hm2 : n.minFac ≠ 2 := by
            intro h
            rw [h] at hmd
            obtain ⟨k, hk⟩ := hmd
            omega
          have hmodd : n.minFac % 2 = 1 := by
            rcases hmp.eq_two_or_odd with h | h
            · exact absurd h hm2
            · exact h
          have hm3 : 3 ≤ n.minFac := by
            have := hmp.two_le
            omega
          rw [pow_two] at hm
          exact hall n.minFac hm3 hmodd hm hmd
        · intro hp j hj3 hjodd hjsq hjd
          rcases hp.eq_one_or_self_of_dvd j hjd with h | h
          · omega
          · subst h
            nlinarith

theorem next_prime_aux_spec : ∀ (f n : Nat), (∃ p, n ≤ p ∧ p < n + f ∧ Nat.Prime p) →
    Nat.Prime (next_prime_aux f n) ∧ n ≤ next_prime_aux f n ∧
      ∀ q, Nat.Prime q → n ≤ q → next_prime_aux f n ≤ q := by
  intro f
  induction f with
  | zero =>
    intro n hex
    obtain ⟨p, hp1, hp2, _⟩ := hex
    omega
  | succ f ih =>
    intro n hex
    simp only [next_prime_aux]
    by_cases hn : is_prime n = true
    · rw [if_pos hn]
      exact ⟨(is_prime_iff n).mp hn, le_refl n, fun q _ hq => hq⟩
    · rw [if_neg hn]
      have hnp : ¬ Nat.Prime n := fun h => hn ((is_prime_iff n).mpr h)
      obtain ⟨p, hp1, hp2, hp3⟩ := hex
      have hp1' : n + 1 ≤ p := by
        rcases Nat.eq_or_lt_of_le hp1 with h | h
        · exact absurd (h ▸ hp3) hnp
        · omega
      obtain ⟨hq1, hq2, hq3⟩ := ih (n + 1) ⟨p, hp1', by omega, hp3⟩
      refine ⟨hq1, by omega, fun q hq hnq => ?_⟩
      rcases Nat.eq_or_lt_of_le hnq with h | h
      · exact absurd (h ▸ hq) hnp
      · exact hq3 q hq (by omega)

/-- `next_prime n` is the least prime at least `n`. -/
theorem next_prime_spec (n : Nat) :
    Nat.Prime (next_prime n) ∧ n ≤ next_prime n ∧
      ∀ q, Nat.Prime q → n ≤ q → next_prime n ≤ q := by
  apply next_prime_aux_spec
  rcases Nat.lt_or_ge n 3 with h | h
  · exact ⟨2, by omega, by omega, Nat.prime_two⟩
  · obtain ⟨p, hp, h1, h2⟩ := Nat.bertrand (n - 1) (by omega)
    exact ⟨p, by omega, by omega, hp⟩

theorem insert_fold_length : ∀ (todo : List (Nat × Nat)) (ts : Nat) (kv : List Nat × List Nat),
    (todo.foldl (fun kv e =>
      let partial_key := (e.1 >>> 16) % 2 ^ 32
      match findEmpty kv.1 (e.1 % ts) ts with
      | some idx => (kv.1.set idx partial_key, kv.2.set idx e.2)
      | none => kv) kv).1.length = kv.1.length ∧
    (todo.foldl (fun kv e =>
      let partial_key := (e.1 >>> 16) % 2 ^ 32
      match findEmpty kv.1 (e.1 % ts) ts with
      | some idx => (kv.1.set idx partial_key, kv.2.set idx e.2)
      | none => kv) kv).2.length = kv.2.length := by
  intro todo
  induction todo with
  | nil =>
    intro ts kv
    exact ⟨rfl, rfl⟩
  | cons e rest ih =>
    intro ts kv
    rw [List.foldl_cons]
    rcases hfe : findEmpty kv.1 (e.1 % ts) ts with _ | idx
    · simp only [hfe]
      exact ih ts kv
    · simp only [hfe]
      obtain ⟨h1, h2⟩ := ih ts (kv.1.set idx ((e.1 >>> 16) % 2 ^ 32), kv.2.set idx e.2)
      rw [h1, h2]
      simp [List.length_set]

theorem buildTable_length (entries : List (Nat × Nat)) :
    (buildTable entries).1.length = next_prime (entries.length * 2) ∧
      (buildTable entries).2.length = next_prime (entries.length * 2) := by
  unfold buildTable
  obtain ⟨h1, h2⟩ := insert_fold_length entries (next_prime (entries.length * 2))
    (List.replicate (next_prime (entries.length * 2)) 0,
     List.replicate (next_prime (entries.length * 2)) 0)
  rw [h1, h2]
  simp [List.length_replicate]

/-- Claim C9: for `N ≥ 1` entries, the serializer's table size
`next_prime(2N)` is the smallest prime at least `2N`, the trial-division
test deciding primality exactly. -/
theorem claim_C9 (entries : List (Nat × Nat)) (hN : 1 ≤ entries.length) :
    (buildTable entries).1.length = next_prime (entries.length * 2) ∧
    Nat.Prime (next_prime (entries.length * 2)) ∧
    entries.length * 2 ≤ next_prime (entries.length * 2) ∧
    (∀ q, Nat.Prime q → entries.length * 2 ≤ q → next_prime (entries.length * 2) ≤ q) ∧
    (∀ n, is_prime n = true ↔ Nat.Prime n) := by
  obtain ⟨h1, h2, h3⟩ := next_prime_spec (entries.length * 2)
  exact ⟨(buildTable_length entries).1, h1, h2, h3, is_prime_iff⟩

theorem claim_C9_witness :
    1 ≤ ([((131072 : Nat), (3 : Nat)), (196608, 4)] : List (Nat × Nat)).length ∧
    next_prime (([((131072 : Nat), (3 : Nat)), (196608, 4)] : List (Nat × Nat)).length * 2) = 5 ∧
    (buildTable [((131072 : Nat), (3 : Nat)), (196608, 4)]).1.length = 5 ∧
    Nat.Prime (next_prime (([((131072 : Nat), (3 : Nat)), (196608, 4)] :
      List (Nat × Nat)).length * 2)) := by
  refine ⟨by decide, by decide, ?_, (claim_C9 _ (by decide)).2.1⟩
  have h := (claim_C9 [((131072 : Nat), (3 : Nat)), (196608, 4)] (by decide)).1
  rw [h]
  decide

/-! ## Claim C2: round-trip through the serialized hash table -/

/-- The stored 32-bit partial key of a hash. -/
def partialKey (h : Nat) : Nat := (h >>> 16) % 2 ^ 32

theorem getD_set_self {l : List Nat} {i : Nat} (h : i < l.length) (v : Nat) :
    (l.set i v).getD i 0 = v := by
  rw [List.getD_eq_get?, List.get?_set_eq]
  rw [List.get?_eq_get h]
  rfl

theorem getD_set_ne {l : List Nat} {i j : Nat} (h : i ≠ j) (v : Nat) :
    (l.set i v).getD j 0 = l.getD j 0 := by
  rw [List.getD_eq_get?, List.getD_eq_get?, List.get?_set_ne _ _ h]

theorem count_zero_set : ∀ (l : List Nat) (i v : Nat),
    l.count 0 ≤ (l.set i v).count 0 + 1 := by
  intro l
  induction l with
  | nil => intro i v; simp
  | cons a t ih =>
    intro i v
    cases i with
    | zero =>
      simp only [List.set, List.count_cons]
      split <;> split <;> omega
    | succ i =>
      simp only [List.set, List.count_cons]
      have := ih i v
      split <;> omega

theorem exists_zero_slot {T : Nat} (hT : 0 < T) {keys : List Nat}
    (hlen : keys.length = T) (hpos : 0 < keys.count 0) (idx : Nat) (hidx : idx < T) :
    ∃ j, j < T ∧ keys.getD ((idx + j) % T) 0 = 0 := by
  have hmem : (0 : Nat) ∈ keys := by
    rcases List.count_pos_iff_mem.mp hpos with h
    exact h
  obtain ⟨n, hn⟩ := List.mem_iff_get.mp hmem
  have hnT : (n : Nat) < T := by rw [← hlen]; exact n.isLt
  have hget : keys.getD (n : Nat) 0 = 0 := by
    rw [List.getD_eq_get? , List.get?_eq_get n.isLt]
    simpa using hn
  rcases le_or_lt idx (n : Nat) with h | h
  · refine ⟨(n : Nat) - idx, by omega, ?_⟩
    have : idx + ((n : Nat) - idx) = (n : Nat) := by omega
    rw [this, Nat.mod_eq_of_lt hnT]
    exact hget
  · refine ⟨T - idx + (n : Nat), by omega, ?_⟩
    have : idx + (T - idx + (n : Nat)) = T + (n : Nat) := by omega
    rw [this, Nat.add_mod_left, Nat.mod_eq_of_lt hnT]
    exact hget

theorem findEmpty_spec {T : Nat} (hT : 0 < T) :
    ∀ (fuel : Nat) (keys : List Nat) (idx : Nat), keys.length = T → idx < T →
    (∃ j, j < fuel ∧ keys.getD ((idx + j) % T) 0 = 0) →
    ∃ k, k < fuel ∧ findEmpty keys idx fuel = some ((idx + k) % T) ∧
      keys.getD ((idx + k) % T) 0 = 0 ∧
      ∀ k', k' < k → keys.getD ((idx + k') % T) 0 ≠ 0 := by
  intro fuel
  induction fuel with
  | zero =>
    rintro keys idx hlen hidx ⟨j, hj, _⟩
    exact absurd hj (Nat.not_lt_zero j)
  | succ fuel ih =>
    rintro keys idx hlen hidx ⟨j, hj, hjz⟩
    simp only [findEmpty]
    by_cases h0 : keys.getD idx 0 = 0
    · refine ⟨0, by omega, ?_, ?_, ?_⟩
      · rw [if_pos h0, Nat.add_zero, Nat.mod_eq_of_lt hidx]
      · rw [Nat.add_zero, Nat.mod_eq_of_lt hidx]
        exact h0
      · intro k' hk'
        exact absurd hk' (Nat.not_lt_zero _)
    · rw [if_neg h0, hlen]
      have hj0 : j ≠ 0 := by
        intro h
        subst h
        rw [Nat.add_zero, Nat.mod_eq_of_lt hidx] at hjz
        exact h0 hjz
      obtain ⟨j', rfl⟩ : ∃ j', j = j' + 1 := ⟨j - 1, by omega⟩
      have hstep : ∀ x, ((idx + 1) % T + x) % T = (idx + (x + 1)) % T := by
        intro x
        rw [Nat.mod_add_mod]
        congr 1
        omega
      obtain ⟨k, hk, heq, hkz, hpath⟩ := ih keys ((idx + 1) % T)
        (hlen) (Nat.mod_lt _ hT) ⟨j', by omega, by rw [hstep j']; exact hjz⟩
      refine ⟨k + 1, by omega, ?_, ?_, ?_⟩
      · rw [heq, hstep k]
      · rw [← hstep k]
        exact hkz
      · intro k' hk'
        cases k' with
        | zero =>
          rw [Nat.add_zero, Nat.mod_eq_of_lt hidx]
          exact h0
        | succ k'' =>
          rw [← hstep k'']
          exact hpath k'' (by omega)

/-- Invariant of the serializer's insertion fold: lengths, a lower bound on
the free slots, every occupied slot holds the partial key and column of a
processed entry, and every processed entry sits at the end of a fully
occupied probe path from its home slot. -/
def TableInv (T : Nat) (done : List (Nat × Nat)) (kv : List Nat × List Nat) : Prop :=
  kv.1.length = T ∧ kv.2.length = T ∧
  T - done.length ≤ kv.1.count 0 ∧
  (∀ i, i < T → kv.1.getD i 0 ≠ 0 →
    ∃ f ∈ done, kv.1.getD i 0 = partialKey f.1 ∧ kv.2.getD i 0 = f.2) ∧
  (∀ f ∈ done, ∃ k, k < T ∧
    kv.1.getD ((f.1 % T + k) % T) 0 = partialKey f.1 ∧
    kv.2.getD ((f.1 % T + k) % T) 0 = f.2 ∧
    ∀ k', k' < k → kv.1.getD ((f.1 % T + k') % T) 0 ≠ 0)

theorem tableInv_insert {T : Nat} (hT : 0 < T) {done : List (Nat × Nat)}
    {kv : List Nat × List Nat} (e : Nat × Nat)
    (hinv : TableInv T done kv) (hroom : done.length + 1 ≤ T)
    (hpke : partialKey e.1 ≠ 0) (hpkdone : ∀ f ∈ done, partialKey f.1 ≠ 0) :
    ∃ i0, i0 < T ∧ findEmpty kv.1 (e.1 % T) T = some i0 ∧
      TableInv T (done ++ [e]) (kv.1.set i0 (partialKey e.1), kv.2.set i0 e.2) := by
  obtain ⟨hl1, hl2, hcount, hocc, hstored⟩ := hinv
  have hcpos : 0 < kv.1.count 0 := by omega
  have hhome : e.1 % T < T := Nat.mod_lt _ hT
  obtain ⟨j, hj, hjz⟩ := exists_zero_slot hT hl1 hcpos (e.1 % T) hhome
  obtain ⟨k, hkT, heq, hkz, hpath⟩ := findEmpty_spec hT T kv.1 (e.1 % T) hl1 hhome ⟨j, hj, hjz⟩
  have hi0T : (e.1 % T + k) % T < T := Nat.mod_lt _ hT
  refine ⟨(e.1 % T + k) % T, hi0T, heq, ?_, ?_, ?_, ?_, ?_⟩
  · simp [List.length_set, hl1]
  · simp [List.length_set, hl2]
  · have hdrop := count_zero_set kv.1 ((e.1 % T + k) % T) (partialKey e.1)
    simp only [List.length_append, List.length_singleton]
    omega
  · intro i hiT hne
    by_cases hii : i = (e.1 % T + k) % T
    · subst hii
      rw [getD_set_self (by rw [hl1]; exact hi0T)]
      rw [getD_set_self (by rw [hl2]; exact hi0T)]
      exact ⟨e, List.mem_append_right _ (List.mem_singleton_self e), rfl, rfl⟩
    · rw [getD_set_ne (fun h => hii h.symm)] at hne ⊢
      rw [getD_set_ne (fun h => hii h.symm)]
      obtain ⟨f, hf, h1, h2⟩ := hocc i hiT hne
      exact ⟨f, List.mem_append_left _ hf, h1, h2⟩
  · intro f hf
    rcases List.mem_append.mp hf with hfd | hfe
    · obtain ⟨kf, hkfT, hk1, hk2, hkpath⟩ := hstored f hfd
      have hne0 : kv.1.getD ((f.1 % T + kf) % T) 0 ≠ 0 := by
        rw [hk1]
        exact hpkdone f hfd
      have hslotne : (f.1 % T + kf) % T ≠ (e.1 % T + k) % T := by
        intro h
        rw [h, hkz] at hk1
        exact hpkdone f hfd hk1.symm
      refine ⟨kf, hkfT, ?_, ?_, ?_⟩
      · rw [getD_set_ne (Ne.symm hslotne)]
        exact hk1
      · rw [getD_set_ne (Ne.symm hslotne)]
        exact hk2
      · intro k' hk'
        by_cases hsl : (f.1 % T + k') % T = (e.1 % T + k) % T
        · rw [hsl, getD_set_self (by rw [hl1]; exact hi0T)]
          exact hpke
        · rw [getD_set_ne (Ne.symm hsl)]
          exact hkpath k' hk'
    · have hfe' : f = e := List.mem_singleton.mp hfe
      subst hfe'
      refine ⟨k, hkT, ?_, ?_, ?_⟩
      · rw [getD_set_self (by rw [hl1]; exact hi0T)]
      · rw [getD_set_self (by rw [hl2]; exact hi0T)]
      · intro k' hk'
        by_cases hsl : (f.1 % T + k') % T = (f.1 % T + k) % T
        · rw [hsl, getD_set_self (by rw [hl1]; exact hi0T)]
          exact hpke
        · rw [getD_set_ne (Ne.symm hsl)]
          exact hpath k' hk'

theorem tableInv_fold {T : Nat} (hT : 0 < T) :
    ∀ (todo done : List (Nat × Nat)) (kv : List Nat × List Nat),
      done.length + todo.length ≤ T →
      (∀ f ∈ done ++ todo, partialKey f.1 ≠ 0) →
      TableInv T done kv →
      TableInv T (done ++ todo) (todo.foldl (fun kv e =>
        let partial_key := (e.1 >>> 16) % 2 ^ 32
        match findEmpty kv.1 (e.1 % T) T with
        | some idx => (kv.1.set idx partial_key, kv.2.set idx e.2)
        | none => kv) kv) := by
  intro todo
  induction todo with
  | nil =>
    intro done kv _ _ hinv
    rw [List.append_nil]
    exact hinv
  | cons e rest ih =>
    intro done kv hlen hpk hinv
    rw [List.foldl_cons]
    have hpke : partialKey e.1 ≠ 0 :=
      hpk e (List.mem_append_right _ (List.mem_cons_self _ _))
    have hpkdone : ∀ f ∈ done, partialKey f.1 ≠ 0 :=
      fun f hf => hpk f (List.mem_append_left _ hf)
    have hroom : done.length + 1 ≤ T := by
      simp only [List.length_cons] at hlen
      omega
    obtain ⟨i0, hi0, heq, hinv'⟩ := tableInv_insert hT e hinv hroom hpke hpkdone
    rw [heq]
    have hres := ih (done ++ [e]) (kv.1.set i0 (partialKey e.1), kv.2.set i0 e.2)
      (by simp only [List.length_append, List.length_singleton, List.length_cons,
            List.length_nil] at hlen ⊢; omega)
      (by
        intro f hf
        apply hpk f
        rw [List.append_cons]
        exact hf)
      hinv'
    rw [← List.append_cons] at hres
    exact hres

/-- Claim C2 (amended): when the written entries have pairwise distinct and
nonzero partial keys, the consumer lookup of any written entry's key
returns exactly its column. -/
theorem claim_C2 (entries : List (Nat × Nat))
    (hpk : ∀ e ∈ entries, (e.1 >>> 16) % 2 ^ 32 ≠ 0)
    (hdist : entries.Pairwise (fun a b => (a.1 >>> 16) % 2 ^ 32 ≠ (b.1 >>> 16) % 2 ^ 32)) :
    ∀ e ∈ entries,
      db_lookup (buildTable entries).1 (buildTable entries).2 e.1 = some e.2 := by
  intro e he
  have hN : 1 ≤ entries.length := List.length_pos_of_mem he
  have hTspec := next_prime_spec (entries.length * 2)
  have hT2N : entries.length * 2 ≤ next_prime (entries.length * 2) := hTspec.2.1
  have hT : 0 < next_prime (entries.length * 2) := by omega
  have hbase : TableInv (next_prime (entries.length * 2)) []
      (List.replicate (next_prime (entries.length * 2)) 0,
       List.replicate (next_prime (entries.length * 2)) 0) := by
    refine ⟨by simp, by simp, ?_, ?_, ?_⟩
    · simp [List.count_replicate_self]
    · intro i hiT hne
      exfalso
      apply hne
      rcases lt_or_ge i (next_prime (entries.length * 2)) with h | h
      · rw [List.getD_eq_get? , List.get?_eq_get (by simpa using h)]
        simp
      · omega
    · intro f hf
      cases hf
  have hfold := tableInv_fold hT entries [] _ (by simpa using by omega) (by simpa using hpk)
    hbase
  rw [List.nil_append] at hfold
  have hbt : buildTable entries = entries.foldl (fun kv e =>
      let partial_key := (e.1 >>> 16) % 2 ^ 32
      match findEmpty kv.1 (e.1 % next_prime (entries.length * 2))
        (next_prime (entries.length * 2)) with
      | some idx => (kv.1.set idx partial_key, kv.2.set idx e.2)
      | none => kv)
      (List.replicate (next_prime (entries.length * 2)) 0,
       List.replicate (next_prime (entries.length * 2)) 0) := rfl
  rw [← hbt] at hfold
  obtain ⟨hl1, hl2, hcount, hocc, hstored⟩ := hfold
  obtain ⟨k, hkT, hk1, hk2, hkpath⟩ := hstored e he
  have hdist' : ∀ f ∈ entries, partialKey f.1 = partialKey e.1 → f.2 = e.2 := by
    intro f hf hpkeq
    by_cases hfe : f = e
    · rw [hfe]
    · exact absurd hpkeq (List.Pairwise.forall (fun a b hab => Ne.symm hab) hdist hf he hfe)
  have hwalk : ∀ m j fuel, j + m = k → m < fuel →
      lookupAux (buildTable entries).1 (buildTable entries).2 e.1
        ((e.1 % next_prime (entries.length * 2) + j) % next_prime (entries.length * 2))
        fuel = some e.2 := by
    intro m
    induction m with
    | zero =>
      intro j fuel hj hf
      obtain ⟨fuel', rfl⟩ : ∃ f', fuel = f' + 1 := ⟨fuel - 1, by omega⟩
      have hjk : j = k := by omega
      subst hjk
      simp only [lookupAux]
      rw [hk1]
      rw [if_neg (show ¬ partialKey e.1 = 0 from hpk e he)]
      rw [if_pos (show partialKey e.1 = (e.1 >>> 16) % 2 ^ 32 from rfl)]
      rw [hk2]
    | succ m ihm =>
      intro j fuel hj hf
      obtain ⟨fuel', rfl⟩ : ∃ f', fuel = f' + 1 := ⟨fuel - 1, by omega⟩
      simp only [lookupAux]
      have hjk : j < k := by omega
      have hne0 := hkpath j hjk
      rw [if_neg hne0]
      by_cases hmatch : (buildTable entries).1.getD
          ((e.1 % next_prime (entries.length * 2) + j) % next_prime (entries.length * 2)) 0 =
          (e.1 >>> 16) % 2 ^ 32
      · rw [if_pos hmatch]
        obtain ⟨f, hfmem, hf1, hf2⟩ := hocc _ (Nat.mod_lt _ hT) hne0
        rw [hf2]
        apply congrArg
        apply hdist' f hfmem
        rw [← hf1, hmatch]
        rfl
      · rw [if_neg hmatch, hl1]
        have hidx : ((e.1 % next_prime (entries.length * 2) + j) %
            next_prime (entries.length * 2) + 1) % next_prime (entries.length * 2) =
            (e.1 % next_prime (entries.length * 2) + (j + 1)) %
              next_prime (entries.length * 2) := by
          rw [Nat.mod_add_mod, Nat.add_assoc]
        rw [hidx]
        exact ihm (j + 1) fuel' (by omega) (by omega)
  unfold db_lookup
  rw [hl1]
  have hfin := hwalk k 0 (next_prime (entries.length * 2)) (by omega) hkT
  rw [Nat.add_zero, Nat.mod_eq_of_lt (Nat.mod_lt _ hT)] at hfin
  exact hfin

theorem claim_C2_counterexample :
    ((65541 : Nat), (5 : Nat)) ∈ [((65536 : Nat), (2 : Nat)), (65541, 5)] ∧
    db_lookup (buildTable [((65536 : Nat), (2 : Nat)), (65541, 5)]).1
      (buildTable [((65536 : Nat), (2 : Nat)), (65541, 5)]).2 65541 = some 2 ∧
    (2 : Nat) ≠ 5 := by decide

theorem claim_C2_witness :
    (∀ e ∈ [((131072 : Nat), (3 : Nat)), (196608, 4)], (e.1 >>> 16) % 2 ^ 32 ≠ 0) ∧
    ([((131072 : Nat), (3 : Nat)), (196608, 4)] : List (Nat × Nat)).Pairwise
      (fun a b => (a.1 >>> 16) % 2 ^ 32 ≠ (b.1 >>> 16) % 2 ^ 32) ∧
    db_lookup (buildTable [((131072 : Nat), (3 : Nat)), (196608, 4)]).1
      (buildTable [((131072 : Nat), (3 : Nat)), (196608, 4)]).2 131072 = some 3 := by
  refine ⟨by decide, by decide, ?_⟩
  exact claim_C2 _ (by decide) (by decide) (131072, 3) (by decide)

/-! ## Claim C3: allocation-failure handling

The process-exit behaviour is modelled by `Except`: `.error (msg, code)`
means the function printed `msg` to standard error and terminated the
process with exit status `code`; `.ok`/a plain return value means control
returned to the caller.  Allocation outcomes are a `Bool` parameter. -/

/-- `tt_init`: on `calloc` failure it reports and calls `exit(1)`. -/
def tt_init_run (allocOk : Bool) : Except (String × Nat) TT :=
  if allocOk then .ok tt_init
  else .error ("Failed to allocate transposition table!", 1)

/-- The critical-entry buffer: capacity and contents. -/
structure CritBuf where
  capacity : Nat
  list : List (Nat × Nat)
deriving DecidableEq, Repr

/-- `add_critical`: grows the buffer (doubling, from 1000000) when full; on
`realloc` failure it reports and calls `exit(1)`. -/
def add_critical (growOk : Bool) (buf : CritBuf) (hash col : Nat) :
    Except (String × Nat) CritBuf :=
  if buf.list.length ≥ buf.capacity then
    if growOk then
      let newCap := if buf.capacity = 0 then 1000000 else buf.capacity * 2
      .ok ⟨newCap, buf.list ++ [(hash, col)]⟩
    else .error ("Failed to allocate critical list!", 1)
  else .ok ⟨buf.capacity, buf.list ++ [(hash, col)]⟩

/-- The on-disk container: header bytes, table size, keys, values. -/
structure DBFile where
  header : List Nat
  table_size : Nat
  keys : List Nat
  values : List Nat
deriving DecidableEq, Repr

/-- `save_database`: result is `(stderr lines, file written)`.  With no
entries, or when the `calloc` of the hash-table arrays fails, it frees and
RETURNS (it does not exit); `main` then continues and returns 0. -/
def save_database (allocOk : Bool) (entries : List (Nat × Nat)) :
    List String × Option DBFile :=
  if entries.length = 0 then ([], none)
  else if allocOk = false then (["Failed to allocate hash table!"], none)
  else
    let kv := buildTable entries
    ([], some ⟨[WIDTH, HEIGHT, MIN_PLY, MAX_PLY, 4, 1, 0, 0],
      next_prime (entries.length * 2), kv.1, kv.2⟩)

theorem claim_C3_counterexample :
    save_database false [((1 : Nat), (2 : Nat))] =
      (["Failed to allocate hash table!"], none) := by
  rfl

/-- Claim C3 (amended): transposition-table allocation failure and
critical-buffer growth failure report to standard error and terminate the
process with exit code 1, but the serializer's hash-table allocation
failure only reports and returns without a file — the process goes on to
exit normally. -/
theorem claim_C3 :
    tt_init_run false = .error ("Failed to allocate transposition table!", 1) ∧
    (∀ (buf : CritBuf) (hash col : Nat), buf.capacity ≤ buf.list.length →
      add_critical false buf hash col = .error ("Failed to allocate critical list!", 1)) ∧
    (∀ (e : Nat × Nat) (rest : List (Nat × Nat)), save_database false (e :: rest) =
      (["Failed to allocate hash table!"], none)) := by
  refine ⟨rfl, ?_, ?_⟩
  · intro buf hash col h
    unfold add_critical
    rw [if_pos (by omega : buf.list.length ≥ buf.capacity)]
    rfl
  · intro e rest
    unfold save_database
    rw [if_neg (by simp : ¬((e :: rest).length = 0))]
    rfl

theorem claim_C3_witness :
    (⟨0, []⟩ : CritBuf).capacity ≤ (⟨0, []⟩ : CritBuf).list.length ∧
    add_critical false ⟨0, []⟩ 7 3 = .error ("Failed to allocate critical list!", 1) :=
  ⟨Nat.le_refl 0, claim_C3.2.1 ⟨0, []⟩ 7 3 (Nat.le_refl 0)⟩
